import Mathlib

/-! Interleaved 2 of 5 barcode: `glbarcode/BarcodeI2of5.cpp`

A shallow embedding of the four operations of `BarcodeI2of5`
(`validate`, `encode`, `prepareText`, `vectorize`) together with the
constant tables they read.

Conventions of the embedding:

* a `std::string` is a `List Char`; `toupper` / `tolower` are the "C" locale
  functions, which change the ASCII letters only;
* `std::string::find (char)` returns `Option Nat`, `none` standing for `npos`;
* every subscript (`cookedData[i]`, `symbols[k]`, `sym1[j / 2]`) is an
  `Option`-valued lookup, so `encode` returns `none` exactly when the C++
  code would leave defined behaviour; a read of `cookedData[length]` (the
  terminating null, which `find` does not find) counts as a failed lookup;
* the loop index of `encode` is a `Nat` (the `unsigned` counter does not wrap
  for strings shorter than `2 ^ 32` characters);
* `double` is modelled twice: `vectorize` computes in exact rational
  arithmetic (`ℚ`), and `vectorizeR` passes every arithmetic result through a
  rounding function, which is `roundDouble` for the arithmetic of `double`;
* `showText ()` and `checksum ()` belong to the base class and are taken as
  Boolean parameters; `addLine` / `addText` append to the lists of emitted
  primitives.
-/

namespace BarcodeI2of5

/-! ## Characters and constant tables -/

/-- The C function `toupper` in the "C" locale. -/
def toupper (c : Char) : Char := c.toUpper

/-- The C function `tolower` in the "C" locale. -/
def tolower (c : Char) : Char := c.toLower

/-- The alphabet: position indicates value. -/
def alphabet : List Char := ['0', '1', '2', '3', '4', '5', '6', '7', '8', '9']

/-- The symbol table: position matches position in `alphabet`. -/
def symbols : List (List Char) :=
  [ /- 0 -/ ['n', 'n', 'w', 'w', 'n'],
    /- 1 -/ ['w', 'n', 'n', 'n', 'w'],
    /- 2 -/ ['n', 'w', 'n', 'n', 'w'],
    /- 3 -/ ['w', 'w', 'n', 'n', 'n'],
    /- 4 -/ ['n', 'n', 'w', 'n', 'w'],
    /- 5 -/ ['w', 'n', 'w', 'n', 'n'],
    /- 6 -/ ['n', 'w', 'w', 'n', 'n'],
    /- 7 -/ ['n', 'n', 'n', 'w', 'w'],
    /- 8 -/ ['w', 'n', 'n', 'w', 'n'],
    /- 9 -/ ['n', 'w', 'n', 'w', 'n'] ]

/-- The left frame pattern `"NnNn"`. -/
def frameSymbol : List Char := ['N', 'n', 'N', 'n']

/-- The right frame pattern `"WnN"`. -/
def frameEndSymbol : List Char := ['W', 'n', 'N']

/-- `std::string::find (char)`: index of the first occurrence, `none` for `npos`. -/
def find : List Char → Char → Option Nat
  | [], _ => none
  | x :: xs, c => if x = c then some 0 else (find xs c).map (· + 1)

/-! ## `validate` -/

/-- The range-for loop of `validate`: the first character that is not in the
alphabet after `toupper` ends the loop with `false`. -/
def validateLoop : List Char → Bool
  | [] => true
  | r :: rest =>
    let c := toupper r
    if find alphabet c = none then false else validateLoop rest

/-- `BarcodeI2of5::validate`. -/
def validate (rawData : List Char) : Bool :=
  if rawData.length % 2 ≠ 0 then false else validateLoop rawData

/-! ## `encode` -/

/-- The lookup `symbols[alphabet.find (toupper (c))]`; `none` when `find`
returns `npos` or the index is outside the table. -/
def symbolOf (c : Char) : Option (List Char) :=
  (find alphabet (toupper c)).bind fun k => symbols[k]?

/-- One round of the inner loop of `encode`: the token appended for index `j`. -/
def encodeStep (sym1 sym2 : List Char) (code : List Char) (j : Nat) : Option (List Char) :=
  if j % 2 = 0 then
    (sym1[j / 2]?).map fun c => code ++ [toupper c]
  else
    (sym2[j / 2]?).map fun c => code ++ [tolower c]

/-- The inner loop `for (auto j = 0; j < 10; j++)` of `encode`. -/
def encodePair (sym1 sym2 : List Char) (code : List Char) : Option (List Char) :=
  (List.range 10).foldlM (encodeStep sym1 sym2) code

/-- The outer loop `for (auto i = 0u; i < cookedData.length (); i += 2)` of
`encode`, started at index `i` with the code string built so far. -/
def encodeLoop (cookedData : List Char) (i : Nat) (code : List Char) : Option (List Char) :=
  if i < cookedData.length then
    match cookedData[i]?, cookedData[i + 1]? with
    | some c1, some c2 =>
      match symbolOf c1, symbolOf c2 with
      | some sym1, some sym2 =>
        match encodePair sym1 sym2 code with
        | some code1 => encodeLoop cookedData (i + 2) code1
        | none => none
      | _, _ => none
    | _, _ => none
  else
    some code
termination_by cookedData.length - i
decreasing_by omega

/-- `BarcodeI2of5::encode`. -/
def encode (cookedData : List Char) : Option (List Char) :=
  (encodeLoop cookedData 0 frameSymbol).map fun code => code ++ frameEndSymbol

/-! ## `prepareText` -/

/-- `BarcodeI2of5::prepareText`: the range-for loop appends `toupper (c)` for
every character. -/
def prepareText : List Char → List Char
  | [] => []
  | c :: rest => toupper c :: prepareText rest

/-! ## `vectorize` -/

/-- Modelled from the spec: `PTS_PER_INCH` of `Constants.h`, which is not part of
the sources at hand; the unit system is points, 72 per inch. -/
def PTS_PER_INCH : ℚ := 72

/-- Minimum bar width. -/
def MIN_X : ℚ := 0.0075 * PTS_PER_INCH

/-- Wide to narrow ratio. -/
def N : ℚ := 2.5

/-- Minimum barcode height. -/
def MIN_HEIGHT : ℚ := 0.19685 * PTS_PER_INCH

/-- Minimum quiet zone. -/
def MIN_QUIET : ℚ := 10 * MIN_X

/-- Minimum height of the text area. -/
def MIN_TEXT_AREA_HEIGHT : ℚ := 12.0

/-- Minimum text size. -/
def MIN_TEXT_SIZE : ℚ := 8.0

/-- A line primitive, the arguments of one `addLine (x, y, w, h)`. -/
structure Line where
  x : ℚ
  y : ℚ
  w : ℚ
  h : ℚ
  deriving DecidableEq

/-- A text primitive, the arguments of one `addText (x, y, size, text)`. -/
structure Text where
  x : ℚ
  y : ℚ
  size : ℚ
  text : List Char
  deriving DecidableEq

/-- What a call of `vectorize` leaves behind: the primitives in emission order
and the overwritten in/out parameters `w` and `h`. -/
structure Drawing where
  lines : List Line
  texts : List Text
  w : ℚ
  h : ℚ
  deriving DecidableEq

/-- The local `dataSize` of `vectorize`. -/
def dataSize (cookedData : List Char) : ℚ := (cookedData.length : ℚ) / 2.0

/-- The local `minL` of `vectorize`. -/
def minL (checksum : Bool) (cookedData : List Char) : ℚ :=
  if !checksum then
    2.0 * dataSize cookedData * (2 * N + 3) * MIN_X
  else
    (dataSize cookedData + 3) * (3 * N + 6) * MIN_X

/-- The local `scale` of `vectorize`. -/
def scale (checksum : Bool) (cookedData : List Char) (w : ℚ) : ℚ :=
  if w = 0 then
    1.0
  else
    let scale := w / (minL checksum cookedData + 2 * MIN_QUIET)
    if scale < 1.0 then 1.0 else scale

/-- The local `width` of `vectorize`. -/
def width (checksum : Bool) (cookedData : List Char) (w : ℚ) : ℚ :=
  minL checksum cookedData * scale checksum cookedData w

/-- The local `hTextArea` of `vectorize`. -/
def hTextArea (checksum : Bool) (cookedData : List Char) (w : ℚ) : ℚ :=
  scale checksum cookedData w * MIN_TEXT_AREA_HEIGHT

/-- The local `textSize` of `vectorize`. -/
def textSize (checksum : Bool) (cookedData : List Char) (w : ℚ) : ℚ :=
  scale checksum cookedData w * MIN_TEXT_SIZE

/-- The local `height` of `vectorize`, after the `std::max` assignment. -/
def height (showText checksum : Bool) (cookedData : List Char) (w h : ℚ) : ℚ :=
  let height := if showText then h - hTextArea checksum cookedData w else h
  max height (max (0.15 * width checksum cookedData w) MIN_HEIGHT)

/-- The local `xQuiet` of `vectorize`. -/
def xQuiet (checksum : Bool) (cookedData : List Char) (w : ℚ) : ℚ :=
  max (10 * scale checksum cookedData w * MIN_X) MIN_QUIET

/-- The body of the traversal loop of `vectorize`: the `switch` on one character,
acting on the cursor `x1` and the lines added so far. -/
def drawChar (scale height : ℚ) (st : ℚ × List Line) (c : Char) : ℚ × List Line :=
  if c = 'N' then
    (st.1 + scale * MIN_X, st.2 ++ [⟨st.1, 0.0, scale * MIN_X, height⟩])
  else if c = 'W' then
    (st.1 + scale * N * MIN_X, st.2 ++ [⟨st.1, 0.0, scale * N * MIN_X, height⟩])
  else if c = 'n' then
    (st.1 + scale * MIN_X, st.2)
  else if c = 'w' then
    (st.1 + scale * N * MIN_X, st.2)
  else
    st

/-- The traversal loop `for (char c : codedData)` of `vectorize`, from cursor
`x1` with the lines `ls` already added. -/
def drawLoop (scale height : ℚ) (codedData : List Char) (x1 : ℚ) (ls : List Line) :
    ℚ × List Line :=
  codedData.foldl (drawChar scale height) (x1, ls)

/-- `BarcodeI2of5::vectorize`. -/
def vectorize (showText checksum : Bool) (codedData displayText cookedData : List Char)
    (w h : ℚ) : Drawing :=
  let scale := scale checksum cookedData w
  let width := width checksum cookedData w
  let hTextArea := hTextArea checksum cookedData w
  let textSize := textSize checksum cookedData w
  let height := height showText checksum cookedData w h
  let xQuiet := xQuiet checksum cookedData w
  let lines := (drawLoop scale height codedData xQuiet []).2
  let texts :=
    if showText then
      [⟨xQuiet + width / 2, height + (hTextArea + 0.7 * textSize) / 2, textSize, displayText⟩]
    else
      []
  { lines := lines
    texts := texts
    w := width + 2 * xQuiet
    h := if showText then height + hTextArea else height }

/-! ## `vectorize` in rounded arithmetic

The same operation with the result of every arithmetic operation and every
literal that is no integer passed through a rounding function `fl`. With
`fl = id` this is the exact model above; with `fl = roundDouble` it is the
arithmetic of the `double` type: every IEEE 754 operation returns the exact
result rounded to the nearest representable number (binary64 evaluation of
every single operation, in the order the C++ expression has, without fused
multiply-add and without extended precision). Comparisons and `std::max` do not
round; integer literals and the string length are exact. -/

/-- The binary logarithm of `n`, rounded down, by halving; `fuel` bounds the
number of halvings. -/
def log2Fuel : Nat → Nat → Nat
  | 0, _ => 0
  | fuel + 1, n => if n < 2 then 0 else log2Fuel fuel (n / 2) + 1

/-- The binary logarithm of `n`, rounded down (`0` for `n = 0`). -/
def ilog2 (n : Nat) : Nat := log2Fuel n n

/-- Rounding of a rational to IEEE 754 binary64: the nearest number with 53
significant bits, ties to the even significand. The exponent range is not
modelled (no overflow, no subnormal numbers). -/
def roundDouble (q : ℚ) : ℚ :=
  let n := q.num.natAbs
  let d := q.den
  if n = 0 then 0 else
    let k : ℤ := (ilog2 n : ℤ) - (ilog2 d : ℤ)
    let e : ℤ := if d * 2 ^ k.toNat ≤ n * 2 ^ (-k).toNat then k else k - 1
    let num := n * 2 ^ (52 - e).toNat
    let den := d * 2 ^ (e - 52).toNat
    let f := num / den
    let r := num % den
    let m :=
      if 2 * r < den then f else if den < 2 * r then f + 1 else if f % 2 = 0 then f else f + 1
    let v : ℚ := ((m * 2 ^ (e - 52).toNat : ℕ) : ℚ) / ((2 ^ (52 - e).toNat : ℕ) : ℚ)
    if q < 0 then -v else v

/-- The constant `MIN_X`, as computed with rounding `fl`. -/
def MIN_X_R (fl : ℚ → ℚ) : ℚ := fl (fl 0.0075 * PTS_PER_INCH)

/-- The constant `N`, as read with rounding `fl`. -/
def N_R (fl : ℚ → ℚ) : ℚ := fl 2.5

/-- The constant `MIN_HEIGHT`, as computed with rounding `fl`. -/
def MIN_HEIGHT_R (fl : ℚ → ℚ) : ℚ := fl (fl 0.19685 * PTS_PER_INCH)

/-- The constant `MIN_QUIET`, as computed with rounding `fl`. -/
def MIN_QUIET_R (fl : ℚ → ℚ) : ℚ := fl (10 * MIN_X_R fl)

/-- The local `dataSize` of `vectorize`, with rounding `fl`. -/
def dataSizeR (fl : ℚ → ℚ) (cookedData : List Char) : ℚ := fl ((cookedData.length : ℚ) / 2.0)

/-- The local `minL` of `vectorize`, with rounding `fl`. -/
def minLR (fl : ℚ → ℚ) (checksum : Bool) (cookedData : List Char) : ℚ :=
  if !checksum then
    fl (fl (fl (2.0 * dataSizeR fl cookedData) * fl (fl (2 * N_R fl) + 3)) * MIN_X_R fl)
  else
    fl (fl (fl (dataSizeR fl cookedData + 3) * fl (fl (3 * N_R fl) + 6)) * MIN_X_R fl)

/-- The local `scale` of `vectorize`, with rounding `fl`. -/
def scaleR (fl : ℚ → ℚ) (checksum : Bool) (cookedData : List Char) (w : ℚ) : ℚ :=
  if w = 0 then
    1.0
  else
    let scale := fl (w / fl (minLR fl checksum cookedData + fl (2 * MIN_QUIET_R fl)))
    if scale < 1.0 then 1.0 else scale

/-- The local `width` of `vectorize`, with rounding `fl`. -/
def widthR (fl : ℚ → ℚ) (checksum : Bool) (cookedData : List Char) (w : ℚ) : ℚ :=
  fl (minLR fl checksum cookedData * scaleR fl checksum cookedData w)

/-- The local `hTextArea` of `vectorize`, with rounding `fl`. -/
def hTextAreaR (fl : ℚ → ℚ) (checksum : Bool) (cookedData : List Char) (w : ℚ) : ℚ :=
  fl (scaleR fl checksum cookedData w * MIN_TEXT_AREA_HEIGHT)

/-- The local `textSize` of `vectorize`, with rounding `fl`. -/
def textSizeR (fl : ℚ → ℚ) (checksum : Bool) (cookedData : List Char) (w : ℚ) : ℚ :=
  fl (scaleR fl checksum cookedData w * MIN_TEXT_SIZE)

/-- The local `height` of `vectorize` after the `std::max` assignment, with
rounding `fl`. -/
def heightR (fl : ℚ → ℚ) (showText checksum : Bool) (cookedData : List Char) (w h : ℚ) : ℚ :=
  let height := if showText then fl (h - hTextAreaR fl checksum cookedData w) else h
  max height (max (fl (fl 0.15 * widthR fl checksum cookedData w)) (MIN_HEIGHT_R fl))

/-- The local `xQuiet` of `vectorize`, with rounding `fl`. -/
def xQuietR (fl : ℚ → ℚ) (checksum : Bool) (cookedData : List Char) (w : ℚ) : ℚ :=
  max (fl (fl (10 * scaleR fl checksum cookedData w) * MIN_X_R fl)) (MIN_QUIET_R fl)

/-- The `switch` of the traversal loop of `vectorize`, with rounding `fl`. -/
def drawCharR (fl : ℚ → ℚ) (scale height : ℚ) (st : ℚ × List Line) (c : Char) :
    ℚ × List Line :=
  if c = 'N' then
    (fl (st.1 + fl (scale * MIN_X_R fl)),
      st.2 ++ [⟨st.1, 0.0, fl (scale * MIN_X_R fl), height⟩])
  else if c = 'W' then
    (fl (st.1 + fl (fl (scale * N_R fl) * MIN_X_R fl)),
      st.2 ++ [⟨st.1, 0.0, fl (fl (scale * N_R fl) * MIN_X_R fl), height⟩])
  else if c = 'n' then
    (fl (st.1 + fl (scale * MIN_X_R fl)), st.2)
  else if c = 'w' then
    (fl (st.1 + fl (fl (scale * N_R fl) * MIN_X_R fl)), st.2)
  else
    st

/-- The traversal loop of `vectorize`, with rounding `fl`. -/
def drawLoopR (fl : ℚ → ℚ) (scale height : ℚ) (codedData : List Char) (x1 : ℚ)
    (ls : List Line) : ℚ × List Line :=
  codedData.foldl (drawCharR fl scale height) (x1, ls)

/-- `BarcodeI2of5::vectorize`, with rounding `fl`. -/
def vectorizeR (fl : ℚ → ℚ) (showText checksum : Bool)
    (codedData displayText cookedData : List Char) (w h : ℚ) : Drawing :=
  let scale := scaleR fl checksum cookedData w
  let width := widthR fl checksum cookedData w
  let hTextArea := hTextAreaR fl checksum cookedData w
  let textSize := textSizeR fl checksum cookedData w
  let height := heightR fl showText checksum cookedData w h
  let xQuiet := xQuietR fl checksum cookedData w
  let lines := (drawLoopR fl scale height codedData xQuiet []).2
  let texts :=
    if showText then
      [⟨fl (xQuiet + fl (width / 2)),
        fl (height + fl (fl (hTextArea + fl (fl 0.7 * textSize)) / 2)), textSize, displayText⟩]
    else
      []
  { lines := lines
    texts := texts
    w := fl (width + fl (2 * xQuiet))
    h := if showText then fl (height + hTextArea) else height }

/-! ## Auxiliary notions used in the statements -/

/-- A bar token of a code string: `'N'` or `'W'`. -/
def isBar (c : Char) : Bool := c = 'N' || c = 'W'

/-- The ten code tokens appended for a pair of patterns: bar and space tokens
in alternation. -/
def pairCode : List Char → List Char → List Char
  | a :: p1, b :: p2 => toupper a :: tolower b :: pairCode p1 p2
  | _, _ => []

/-- The pattern of a character, empty when the lookup fails. -/
def patternOf (c : Char) : List Char := (symbolOf c).getD []

/-- The body of the code string, pair by pair. -/
def bodyCode : List Char → List Char
  | c1 :: c2 :: rest => pairCode (patternOf c1) (patternOf c2) ++ bodyCode rest
  | _ => []

/-- A space token of a code string: `'n'` or `'w'`. -/
def isSpace (c : Char) : Bool := c = 'n' || c = 'w'

/-- The element width of a code character: narrow elements are `MIN_X` wide,
wide elements `N * MIN_X`, and any other character has no width. -/
def elw (c : Char) : ℚ :=
  if c = 'N' ∨ c = 'n' then MIN_X else if c = 'W' ∨ c = 'w' then N * MIN_X else 0

/-- The element width of a code character over the constants as computed with
rounding `fl`; the product `N * MIN_X` itself is left exact. -/
def elwR (fl : ℚ → ℚ) (c : Char) : ℚ :=
  if c = 'N' ∨ c = 'n' then MIN_X_R fl
  else if c = 'W' ∨ c = 'w' then N_R fl * MIN_X_R fl else 0

/-- The lines expected for a code string swept from cursor `x1`: one per bar
token, placed at the running sum of the element widths. -/
def barLines (sc ht : ℚ) : List Char → ℚ → List Line
  | [], _ => []
  | c :: cs, x1 =>
    (if isBar c then [(⟨x1, 0, sc * elw c, ht⟩ : Line)] else []) ++
      barLines sc ht cs (x1 + sc * elw c)

/-- Bars and spaces alternate along a code string; `bar` tells whether the
first token has to be a bar. -/
def alternates : Bool → List Char → Bool
  | _, [] => true
  | true, c :: cs => isBar c && alternates false cs
  | false, c :: cs => isSpace c && alternates true cs

/-! ## Lemmas on characters and `find` -/

theorem find_eq_none_iff (s : List Char) (c : Char) : find s c = none ↔ c ∉ s := by
  induction s with
  | nil => simp [find]
  | cons x xs ih =>
    by_cases hx : x = c
    · simp [find, hx]
    · have hx2 : ¬ c = x := fun h => hx h.symm
      simp [find, hx, hx2, ih]

theorem char_mem_of_toNat_range (c : Char) (lo hi : Nat) (h1 : lo ≤ c.toNat)
    (h2 : c.toNat ≤ hi) : c ∈ (List.range' lo (hi + 1 - lo)).map Char.ofNat := by
  rw [List.mem_map]
  refine ⟨c.toNat, ?_, Char.ofNat_toNat c⟩
  rw [List.mem_range']
  exact ⟨c.toNat - lo, by omega, by omega⟩

theorem isDigit_iff_toNat (c : Char) : c.isDigit = true ↔ 48 ≤ c.toNat ∧ c.toNat ≤ 57 := by
  simp only [Char.isDigit, Bool.and_eq_true, decide_eq_true_eq, ge_iff_le, UInt32.le_def,
    BitVec.le_def, Char.toNat]
  exact Iff.rfl

theorem mem_alphabet_iff (c : Char) : c ∈ alphabet ↔ c.isDigit = true := by
  rw [isDigit_iff_toNat]
  constructor
  · intro hm
    simp only [alphabet, List.mem_cons, List.mem_singleton, List.not_mem_nil, or_false] at hm
    rcases hm with h | h | h | h | h | h | h | h | h | h <;> subst h <;> decide
  · intro h
    have hr := char_mem_of_toNat_range c 48 57 h.1 h.2
    simp [List.range'] at hr
    rcases hr with h | h | h | h | h | h | h | h | h | h <;> subst h <;> decide

theorem toupper_of_isDigit (c : Char) (h : c.isDigit = true) : toupper c = c := by
  rw [isDigit_iff_toNat] at h
  unfold toupper Char.toUpper
  have : ¬ (c.toNat ≥ 97 ∧ c.toNat ≤ 122) := by omega
  simp only [this, if_false]

theorem toupper_mem_alphabet (c : Char) : toupper c ∈ alphabet ↔ c.isDigit = true := by
  by_cases h : c.toNat ≥ 97 ∧ c.toNat ≤ 122
  · have hr := char_mem_of_toNat_range c 97 122 h.1 h.2
    simp [List.range'] at hr
    rcases hr with h | h | h | h | h | h | h | h | h | h | h | h | h | h | h | h | h | h | h
      | h | h | h | h | h | h | h <;> subst h <;> decide
  · have : toupper c = c := by
      unfold toupper Char.toUpper
      simp only [h, if_false]
    rw [this, mem_alphabet_iff]

theorem validateLoop_iff (s : List Char) :
    validateLoop s = true ↔ ∀ c ∈ s, c.isDigit = true := by
  induction s with
  | nil => simp [validateLoop]
  | cons r rest ih =>
    by_cases h : r.isDigit = true
    · have hf : ¬ find alphabet (toupper r) = none := by
        rw [find_eq_none_iff, not_not, toupper_mem_alphabet]; exact h
      simp [validateLoop, hf, ih, h]
    · have hf : find alphabet (toupper r) = none := by
        rw [find_eq_none_iff, toupper_mem_alphabet]; exact h
      simp [validateLoop, hf, h]

theorem validate_iff (s : List Char) :
    validate s = true ↔ s.length % 2 = 0 ∧ ∀ c ∈ s, c.isDigit = true := by
  unfold validate
  by_cases h : s.length % 2 = 0
  · simp [h, validateLoop_iff]
  · simp [h]

/-! ## Lemmas on `encode` -/

theorem symbolOf_of_mem_alphabet (c : Char) (h : c ∈ alphabet) :
    ∃ d p, d < 10 ∧ alphabet[d]? = some c ∧ find alphabet (toupper c) = some d ∧
      symbols[d]? = some p ∧ symbolOf c = some p ∧ patternOf c = p ∧ p.length = 5 := by
  refine ⟨(find alphabet (toupper c)).getD 0, patternOf c, ?_⟩
  simp only [alphabet, List.mem_cons, List.mem_singleton, List.not_mem_nil, or_false] at h
  rcases h with h | h | h | h | h | h | h | h | h | h <;> subst h <;> decide

theorem encodePair_eq (p1 p2 code : List Char) (h1 : p1.length = 5) (h2 : p2.length = 5) :
    encodePair p1 p2 code = some (code ++ pairCode p1 p2) := by
  match p1, h1, p2, h2 with
  | [a0, a1, a2, a3, a4], _, [b0, b1, b2, b3, b4], _ =>
    have hr : List.range 10 = [0, 1, 2, 3, 4, 5, 6, 7, 8, 9] := by decide
    simp [encodePair, hr, encodeStep, pairCode]

theorem pairCode_length (p1 p2 : List Char) (h1 : p1.length = 5) (h2 : p2.length = 5) :
    (pairCode p1 p2).length = 10 := by
  match p1, h1, p2, h2 with
  | [a0, a1, a2, a3, a4], _, [b0, b1, b2, b3, b4], _ => simp [pairCode]

theorem pairCode_getElem (p1 p2 : List Char) (h1 : p1.length = 5) (h2 : p2.length = 5)
    (i : Nat) (hi : i < 5) :
    ∃ a b, p1[i]? = some a ∧ p2[i]? = some b ∧
      (pairCode p1 p2)[2 * i]? = some (toupper a) ∧
      (pairCode p1 p2)[2 * i + 1]? = some (tolower b) := by
  match p1, h1, p2, h2 with
  | [a0, a1, a2, a3, a4], _, [b0, b1, b2, b3, b4], _ =>
    interval_cases i <;> simp [pairCode]

theorem encodeLoop_eq : ∀ (rest pre code : List Char), rest.length % 2 = 0 →
    (∀ c ∈ rest, c ∈ alphabet) →
    encodeLoop (pre ++ rest) pre.length code = some (code ++ bodyCode rest)
  | [], pre, code, _, _ => by
    rw [encodeLoop]
    simp [bodyCode]
  | [_], _, _, he, _ => by simp at he
  | c1 :: c2 :: r, pre, code, he, hd => by
    obtain ⟨d1, p1, -, -, -, -, hs1, hp1, hl1⟩ :=
      symbolOf_of_mem_alphabet c1 (hd c1 (by simp))
    obtain ⟨d2, p2, -, -, -, -, hs2, hp2, hl2⟩ :=
      symbolOf_of_mem_alphabet c2 (hd c2 (by simp))
    have ih := encodeLoop_eq r (pre ++ [c1, c2]) (code ++ pairCode p1 p2)
      (by simp only [List.length_cons] at he; omega)
      (fun c hc => hd c (by simp [hc]))
    have hlen : pre.length < (pre ++ c1 :: c2 :: r).length := by simp
    have hg1 : (pre ++ c1 :: c2 :: r)[pre.length]? = some c1 := by
      rw [List.getElem?_append_right (Nat.le_refl _)]; simp
    have hg2 : (pre ++ c1 :: c2 :: r)[pre.length + 1]? = some c2 := by
      rw [List.getElem?_append_right (by omega)]; simp
    rw [encodeLoop]
    simp only [hlen, if_true, hg1, hg2, hs1, hs2, encodePair_eq p1 p2 code hl1 hl2]
    have e1 : pre ++ c1 :: c2 :: r = (pre ++ [c1, c2]) ++ r := by simp
    have e2 : pre.length + 2 = (pre ++ [c1, c2]).length := by simp
    rw [e1, e2, ih, bodyCode, hp1, hp2, List.append_assoc]

theorem validate_mem_alphabet (s : List Char) (hv : validate s = true) :
    s.length % 2 = 0 ∧ ∀ c ∈ s, c ∈ alphabet := by
  obtain ⟨h1, h2⟩ := (validate_iff s).1 hv
  exact ⟨h1, fun c hc => (mem_alphabet_iff c).2 (h2 c hc)⟩

theorem encode_eq (s : List Char) (hv : validate s = true) :
    encode s = some (frameSymbol ++ bodyCode s ++ frameEndSymbol) := by
  obtain ⟨h1, h2⟩ := validate_mem_alphabet s hv
  have := encodeLoop_eq s [] frameSymbol h1 h2
  simp only [List.nil_append, List.length_nil] at this
  simp [encode, this]

theorem bodyCode_length : ∀ (s : List Char), s.length % 2 = 0 → (∀ c ∈ s, c ∈ alphabet) →
    (bodyCode s).length = 5 * s.length
  | [], _, _ => by simp [bodyCode]
  | [_], he, _ => by simp at he
  | c1 :: c2 :: r, he, hd => by
    obtain ⟨d1, p1, -, -, -, -, -, hp1, hl1⟩ :=
      symbolOf_of_mem_alphabet c1 (hd c1 (by simp))
    obtain ⟨d2, p2, -, -, -, -, -, hp2, hl2⟩ :=
      symbolOf_of_mem_alphabet c2 (hd c2 (by simp))
    have ih := bodyCode_length r (by simp only [List.length_cons] at he; omega)
      (fun c hc => hd c (by simp [hc]))
    rw [bodyCode, hp1, hp2, List.length_append, pairCode_length p1 p2 hl1 hl2, ih]
    simp only [List.length_cons]
    omega

theorem bodyCode_getElem : ∀ (s : List Char) (k : Nat), s.length % 2 = 0 →
    (∀ c ∈ s, c ∈ alphabet) → k < s.length / 2 →
    ∃ c1 c2, s[2 * k]? = some c1 ∧ s[2 * k + 1]? = some c2 ∧
      ∀ m, m < 10 → (bodyCode s)[10 * k + m]? = (pairCode (patternOf c1) (patternOf c2))[m]?
  | [], k, _, _, hk => by simp at hk
  | [_], _, he, _, _ => by simp at he
  | c1 :: c2 :: r, 0, _, hd, _ => by
    obtain ⟨d1, p1, -, -, -, -, -, hp1, hl1⟩ :=
      symbolOf_of_mem_alphabet c1 (hd c1 (by simp))
    obtain ⟨d2, p2, -, -, -, -, -, hp2, hl2⟩ :=
      symbolOf_of_mem_alphabet c2 (hd c2 (by simp))
    refine ⟨c1, c2, by simp, by simp, fun m hm => ?_⟩
    rw [bodyCode, hp1, hp2]
    have := pairCode_length p1 p2 hl1 hl2
    rw [List.getElem?_append_left (by omega)]
    simp
  | c1 :: c2 :: r, k + 1, he, hd, hk => by
    obtain ⟨d1, p1, -, -, -, -, -, hp1, hl1⟩ :=
      symbolOf_of_mem_alphabet c1 (hd c1 (by simp))
    obtain ⟨d2, p2, -, -, -, -, -, hp2, hl2⟩ :=
      symbolOf_of_mem_alphabet c2 (hd c2 (by simp))
    obtain ⟨a, b, ha, hb, hm⟩ := bodyCode_getElem r k
      (by simp only [List.length_cons] at he; omega)
      (fun c hc => hd c (by simp [hc]))
      (by simp only [List.length_cons] at hk; omega)
    refine ⟨a, b, ?_, ?_, fun m hm10 => ?_⟩
    · have : 2 * (k + 1) = 2 * k + 1 + 1 := by ring
      rw [this]; simpa using ha
    · have : 2 * (k + 1) + 1 = (2 * k + 1) + 1 + 1 := by ring
      rw [this]; simpa using hb
    · rw [bodyCode, hp1, hp2]
      have hl := pairCode_length p1 p2 hl1 hl2
      rw [List.getElem?_append_right (by omega), hl, ← hm m hm10]
      congr 1
      omega

/-! ## Lemmas on `vectorize` -/

theorem MIN_X_eq : MIN_X = 27 / 50 := by norm_num [MIN_X, PTS_PER_INCH]

theorem MIN_QUIET_eq : MIN_QUIET = 27 / 5 := by norm_num [MIN_QUIET, MIN_X_eq]

theorem MIN_HEIGHT_eq : MIN_HEIGHT = 35433 / 2500 := by norm_num [MIN_HEIGHT, PTS_PER_INCH]

theorem N_eq : N = 5 / 2 := by norm_num [N]

theorem minL_nonneg (checksum : Bool) (cookedData : List Char) :
    0 ≤ minL checksum cookedData := by
  have hd : (0 : ℚ) ≤ (cookedData.length : ℚ) := Nat.cast_nonneg _
  cases checksum <;> simp only [minL, dataSize, MIN_X_eq, N_eq] <;> norm_num <;> positivity

theorem natural_pos (checksum : Bool) (cookedData : List Char) :
    0 < minL checksum cookedData + 2 * MIN_QUIET := by
  have := minL_nonneg checksum cookedData
  rw [MIN_QUIET_eq]
  linarith

theorem scale_eq_max (checksum : Bool) (cookedData : List Char) (w : ℚ) :
    scale checksum cookedData w = max 1 (w / (minL checksum cookedData + 2 * MIN_QUIET)) := by
  unfold scale
  by_cases hw : w = 0
  · simp only [hw, if_true, zero_div]
    norm_num
  · simp only [hw, if_false]
    by_cases hs : w / (minL checksum cookedData + 2 * MIN_QUIET) < 1.0
    · rw [if_pos hs]
      norm_num at hs ⊢
      exact hs.le
    · rw [if_neg hs]
      norm_num at hs ⊢
      exact hs

theorem one_le_scale (checksum : Bool) (cookedData : List Char) (w : ℚ) :
    1 ≤ scale checksum cookedData w := by
  rw [scale_eq_max]
  exact le_max_left _ _

theorem xQuiet_eq (checksum : Bool) (cookedData : List Char) (w : ℚ) :
    xQuiet checksum cookedData w = scale checksum cookedData w * MIN_QUIET := by
  have h1 := one_le_scale checksum cookedData w
  unfold xQuiet
  rw [MIN_QUIET_eq, MIN_X_eq]
  rw [max_eq_left (by nlinarith)]
  ring

theorem returned_w_eq (checksum : Bool) (cookedData : List Char) (w : ℚ) :
    width checksum cookedData w + 2 * xQuiet checksum cookedData w =
      max w (minL checksum cookedData + 2 * MIN_QUIET) := by
  have hpos := natural_pos checksum cookedData
  rw [xQuiet_eq, width, scale_eq_max]
  rcases le_total 1 (w / (minL checksum cookedData + 2 * MIN_QUIET)) with h | h
  · rw [max_eq_right h]
    have hw : minL checksum cookedData + 2 * MIN_QUIET ≤ w := by
      rwa [le_div_iff₀ hpos, one_mul] at h
    rw [max_eq_left hw]
    field_simp
    ring
  · rw [max_eq_left h]
    have hw : w ≤ minL checksum cookedData + 2 * MIN_QUIET := by
      rwa [div_le_iff₀ hpos, one_mul] at h
    rw [max_eq_right hw]
    ring

theorem drawLoop_nil (sc ht x1 : ℚ) (ls : List Line) : drawLoop sc ht [] x1 ls = (x1, ls) := rfl

theorem drawLoop_cons (sc ht : ℚ) (c : Char) (cs : List Char) (x1 : ℚ) (ls : List Line) :
    drawLoop sc ht (c :: cs) x1 ls =
      drawLoop sc ht cs (drawChar sc ht (x1, ls) c).1 (drawChar sc ht (x1, ls) c).2 := rfl

theorem drawLoop_length (sc ht : ℚ) (cs : List Char) : ∀ (x1 : ℚ) (ls : List Line),
    (drawLoop sc ht cs x1 ls).2.length = ls.length + (cs.filter isBar).length := by
  induction cs with
  | nil => intro x1 ls; simp [drawLoop_nil]
  | cons c cs ih =>
    intro x1 ls
    rw [drawLoop_cons, ih]
    by_cases hN : c = 'N'
    · subst hN; simp [drawChar, isBar]; omega
    · by_cases hW : c = 'W'
      · subst hW; simp [drawChar, isBar]; omega
      · by_cases hn : c = 'n'
        · subst hn; simp [drawChar, isBar]
        · by_cases hw : c = 'w'
          · subst hw; simp [drawChar, isBar]
          · simp [drawChar, isBar, hN, hW, hn, hw]

theorem drawChar_mem (sc ht x1 : ℚ) (ls : List Line) (c : Char) (l : Line)
    (h : l ∈ (drawChar sc ht (x1, ls) c).2) :
    l ∈ ls ∨ (l.y = 0 ∧ l.h = ht ∧ (l.w = sc * MIN_X ∨ l.w = sc * N * MIN_X)) := by
  unfold drawChar at h
  split_ifs at h
  · rcases List.mem_append.1 h with h | h
    · exact Or.inl h
    · rw [List.mem_singleton] at h
      subst h
      exact Or.inr ⟨by norm_num, rfl, Or.inl rfl⟩
  · rcases List.mem_append.1 h with h | h
    · exact Or.inl h
    · rw [List.mem_singleton] at h
      subst h
      exact Or.inr ⟨by norm_num, rfl, Or.inr rfl⟩
  · exact Or.inl h
  · exact Or.inl h
  · exact Or.inl h

theorem drawLoop_mem (sc ht : ℚ) (cs : List Char) : ∀ (x1 : ℚ) (ls : List Line) (l : Line),
    l ∈ (drawLoop sc ht cs x1 ls).2 →
      l ∈ ls ∨ (l.y = 0 ∧ l.h = ht ∧ (l.w = sc * MIN_X ∨ l.w = sc * N * MIN_X)) := by
  induction cs with
  | nil => intro x1 ls l h; exact Or.inl h
  | cons c cs ih =>
    intro x1 ls l h
    rw [drawLoop_cons] at h
    rcases ih _ _ l h with h | h
    · exact drawChar_mem sc ht x1 ls c l h
    · exact Or.inr h

theorem drawChar_N (sc ht x1 : ℚ) (ls : List Line) :
    drawChar sc ht (x1, ls) 'N' = (x1 + sc * MIN_X, ls ++ [⟨x1, 0, sc * MIN_X, ht⟩]) := by
  simp only [drawChar, if_true]
  norm_num

theorem drawChar_W (sc ht x1 : ℚ) (ls : List Line) :
    drawChar sc ht (x1, ls) 'W' =
      (x1 + sc * N * MIN_X, ls ++ [⟨x1, 0, sc * N * MIN_X, ht⟩]) := by
  have h : ¬ 'W' = 'N' := by decide
  simp only [drawChar, h, if_true, if_false]
  norm_num

theorem drawChar_n (sc ht x1 : ℚ) (ls : List Line) :
    drawChar sc ht (x1, ls) 'n' = (x1 + sc * MIN_X, ls) := by
  simp [drawChar]

theorem drawChar_w (sc ht x1 : ℚ) (ls : List Line) :
    drawChar sc ht (x1, ls) 'w' = (x1 + sc * N * MIN_X, ls) := by
  simp [drawChar]

theorem encode_12 :
    encode ['1', '2'] = some ['N', 'n', 'N', 'n', 'W', 'n', 'N', 'w', 'N', 'n', 'N', 'n', 'W',
      'w', 'W', 'n', 'N'] := by
  rw [encode_eq _ (by decide)]
  decide

theorem encode_1234 :
    encode ['1', '2', '3', '4'] = some ['N', 'n', 'N', 'n', 'W', 'n', 'N', 'w', 'N', 'n', 'N',
      'n', 'W', 'w', 'W', 'n', 'W', 'n', 'N', 'w', 'N', 'n', 'N', 'w', 'W', 'n', 'N'] := by
  rw [encode_eq _ (by decide)]
  decide

theorem pairCode_bars : ∀ (p1 p2 : List Char), (∀ x ∈ p1, x = 'n' ∨ x = 'w') →
    (∀ x ∈ p2, x = 'n' ∨ x = 'w') → p1.length = p2.length →
    ((pairCode p1 p2).filter isBar).length = p1.length
  | [], _, _, _, _ => by simp [pairCode]
  | _ :: _, [], _, _, hl => by simp at hl
  | a :: p1, b :: p2, h1, h2, hl => by
    have ih := pairCode_bars p1 p2 (fun x hx => h1 x (by simp [hx]))
      (fun x hx => h2 x (by simp [hx])) (by simpa using hl)
    have ha : isBar (toupper a) = true := by
      rcases h1 a (by simp) with h | h <;> subst h <;> decide
    have hb : isBar (tolower b) = false := by
      rcases h2 b (by simp) with h | h <;> subst h <;> decide
    simp [pairCode, ha, hb, ih]

theorem patternOf_narrow_wide (c : Char) (h : c ∈ alphabet) :
    (patternOf c).length = 5 ∧ ∀ x ∈ patternOf c, x = 'n' ∨ x = 'w' := by
  simp only [alphabet, List.mem_cons, List.mem_singleton, List.not_mem_nil, or_false] at h
  rcases h with h | h | h | h | h | h | h | h | h | h <;> subst h <;> decide

theorem bodyCode_bars : ∀ (s : List Char), s.length % 2 = 0 → (∀ c ∈ s, c ∈ alphabet) →
    ((bodyCode s).filter isBar).length = 5 * (s.length / 2)
  | [], _, _ => by simp [bodyCode]
  | [_], he, _ => by simp at he
  | c1 :: c2 :: r, he, hd => by
    obtain ⟨hl1, hn1⟩ := patternOf_narrow_wide c1 (hd c1 (by simp))
    obtain ⟨hl2, hn2⟩ := patternOf_narrow_wide c2 (hd c2 (by simp))
    have ih := bodyCode_bars r (by simp only [List.length_cons] at he; omega)
      (fun c hc => hd c (by simp [hc]))
    rw [bodyCode, List.filter_append, List.length_append,
      pairCode_bars _ _ hn1 hn2 (by rw [hl1, hl2]), ih, hl1]
    simp only [List.length_cons]
    omega

theorem vectorize_lines_length (showText checksum : Bool)
    (codedData displayText cookedData : List Char) (w h : ℚ) :
    (vectorize showText checksum codedData displayText cookedData w h).lines.length =
      (codedData.filter isBar).length := by
  show (drawLoop _ _ _ _ _).2.length = _
  rw [drawLoop_length]
  simp

theorem vectorize_lines_mem (showText checksum : Bool)
    (codedData displayText cookedData : List Char) (w h : ℚ) (l : Line)
    (hl : l ∈ (vectorize showText checksum codedData displayText cookedData w h).lines) :
    l.y = 0 ∧ l.h = height showText checksum cookedData w h ∧
      (l.w = scale checksum cookedData w * MIN_X ∨
        l.w = scale checksum cookedData w * N * MIN_X) := by
  have hl2 : l ∈ (drawLoop (scale checksum cookedData w)
      (height showText checksum cookedData w h) codedData (xQuiet checksum cookedData w) []).2 := hl
  rcases drawLoop_mem _ _ _ _ _ l hl2 with h | h
  · simp at h
  · exact h

/-! ## Lemmas on the traversal loop of `vectorize` -/

theorem drawChar_eq (sc ht x1 : ℚ) (ls : List Line) (c : Char) :
    drawChar sc ht (x1, ls) c =
      (x1 + sc * elw c, ls ++ (if isBar c then [(⟨x1, 0, sc * elw c, ht⟩ : Line)] else [])) := by
  by_cases hN : c = 'N'
  · subst hN
    rw [drawChar_N]
    simp [elw, isBar]
  · by_cases hW : c = 'W'
    · subst hW
      rw [drawChar_W]
      have e : elw 'W' = N * MIN_X := by simp [elw]
      rw [e, ← mul_assoc]
      simp [isBar]
    · by_cases hn : c = 'n'
      · subst hn
        rw [drawChar_n]
        simp [elw, isBar]
      · by_cases hw : c = 'w'
        · subst hw
          rw [drawChar_w]
          have e : elw 'w' = N * MIN_X := by simp [elw]
          rw [e, ← mul_assoc]
          simp [isBar]
        · simp [drawChar, elw, isBar, hN, hW, hn, hw]

theorem drawLoop_eq (sc ht : ℚ) (cs : List Char) : ∀ (x1 : ℚ) (ls : List Line),
    drawLoop sc ht cs x1 ls = (x1 + sc * (cs.map elw).sum, ls ++ barLines sc ht cs x1) := by
  induction cs with
  | nil => intro x1 ls; simp [drawLoop_nil, barLines]
  | cons c cs ih =>
    intro x1 ls
    rw [drawLoop_cons, drawChar_eq, ih]
    simp only [barLines, List.map_cons, List.sum_cons, List.append_assoc, Prod.mk.injEq,
      and_true]
    ring

theorem vectorize_lines_eq (showText checksum : Bool)
    (codedData displayText cookedData : List Char) (w h : ℚ) :
    (vectorize showText checksum codedData displayText cookedData w h).lines =
      barLines (scale checksum cookedData w) (height showText checksum cookedData w h)
        codedData (xQuiet checksum cookedData w) := by
  show (drawLoop _ _ _ _ _).2 = _
  rw [drawLoop_eq]
  simp

theorem barLines_length (sc ht : ℚ) (cs : List Char) : ∀ x1 : ℚ,
    (barLines sc ht cs x1).length = (cs.filter isBar).length := by
  induction cs with
  | nil => intro x1; simp [barLines]
  | cons c cs ih =>
    intro x1
    cases hb : isBar c <;> simp [barLines, hb, ih, List.filter_cons]

theorem barLines_getElem (sc ht : ℚ) (cs : List Char) : ∀ (x1 : ℚ) (k : Nat) (ch : Char),
    cs[k]? = some ch → isBar ch = true →
    (barLines sc ht cs x1)[((cs.take k).filter isBar).length]? =
      some ⟨x1 + sc * ((cs.take k).map elw).sum, 0, sc * elw ch, ht⟩ := by
  induction cs with
  | nil => intro x1 k ch h; simp at h
  | cons c cs ih =>
    intro x1 k ch hk hb
    cases k with
    | zero =>
      simp only [List.getElem?_cons_zero, Option.some.injEq] at hk
      subst hk
      simp [barLines, hb]
    | succ k =>
      simp only [List.getElem?_cons_succ] at hk
      have := ih (x1 + sc * elw c) k ch hk hb
      cases hc : isBar c
      · simp only [barLines, hc, List.take_succ_cons, List.filter_cons, List.map_cons,
          List.sum_cons, Bool.false_eq_true, if_false, List.nil_append]
        rw [this]
        congr 2
        ring
      · simp only [barLines, hc, List.take_succ_cons, List.filter_cons, List.map_cons,
          List.sum_cons, if_true, List.singleton_append, List.length_cons,
          List.getElem?_cons_succ]
        rw [this]
        congr 2
        ring

/-! ## Lemmas on the symbol table -/

theorem symbols_two_of_five :
    ∀ p ∈ symbols, p.length = 5 ∧ (∀ x ∈ p, x = 'n' ∨ x = 'w') ∧ p.count 'w' = 2 := by
  decide

theorem pairCode_counts : ∀ c1 ∈ alphabet, ∀ c2 ∈ alphabet,
    (pairCode (patternOf c1) (patternOf c2)).count 'W' = 2 ∧
    (pairCode (patternOf c1) (patternOf c2)).count 'N' = 3 ∧
    (pairCode (patternOf c1) (patternOf c2)).count 'w' = 2 ∧
    (pairCode (patternOf c1) (patternOf c2)).count 'n' = 3 ∧
    (pairCode (patternOf c1) (patternOf c2)).length = 10 ∧
    alternates true (pairCode (patternOf c1) (patternOf c2)) = true := by
  decide

theorem patternOf_injective : ∀ c1 ∈ alphabet, ∀ c2 ∈ alphabet,
    ((patternOf c1).map toupper = (patternOf c2).map toupper → c1 = c2) ∧
    ((patternOf c1).map tolower = (patternOf c2).map tolower → c1 = c2) := by
  decide

theorem bodyCode_segment : ∀ (s : List Char) (k : Nat) (tail : List Char),
    s.length % 2 = 0 → (∀ c ∈ s, c ∈ alphabet) → k < s.length / 2 →
    ∃ c1 c2, s[2 * k]? = some c1 ∧ s[2 * k + 1]? = some c2 ∧ c1 ∈ alphabet ∧ c2 ∈ alphabet ∧
      ((bodyCode s ++ tail).drop (10 * k)).take 10 = pairCode (patternOf c1) (patternOf c2)
  | [], k, _, _, _, hk => by simp at hk
  | [_], _, _, he, _, _ => by simp at he
  | c1 :: c2 :: r, 0, tail, _, hd, _ => by
    have hc1 := hd c1 (by simp)
    have hc2 := hd c2 (by simp)
    have hl := (pairCode_counts c1 hc1 c2 hc2).2.2.2.2.1
    refine ⟨c1, c2, by simp, by simp, hc1, hc2, ?_⟩
    rw [bodyCode, List.append_assoc, Nat.mul_zero, List.drop_zero,
      List.take_append_of_le_length (by omega), List.take_of_length_le (by omega)]
  | c1 :: c2 :: r, k + 1, tail, he, hd, hk => by
    have hc1 := hd c1 (by simp)
    have hc2 := hd c2 (by simp)
    have hl := (pairCode_counts c1 hc1 c2 hc2).2.2.2.2.1
    obtain ⟨a, b, ha, hb, hma, hmb, hseg⟩ := bodyCode_segment r k tail
      (by simp only [List.length_cons] at he; omega)
      (fun c hc => hd c (by simp [hc]))
      (by simp only [List.length_cons] at hk; omega)
    refine ⟨a, b, ?_, ?_, hma, hmb, ?_⟩
    · have : 2 * (k + 1) = 2 * k + 1 + 1 := by ring
      rw [this]; simpa using ha
    · have : 2 * (k + 1) + 1 = (2 * k + 1) + 1 + 1 := by ring
      rw [this]; simpa using hb
    · rw [bodyCode, List.append_assoc]
      have e : 10 * (k + 1) = (pairCode (patternOf c1) (patternOf c2)).length + 10 * k := by
        rw [hl]; ring
      rw [e, List.drop_append, hseg]

theorem elw_sum_eq_counts (l : List Char) :
    (l.map elw).sum =
      ((l.count 'N' + l.count 'n' : ℕ) : ℚ) * MIN_X +
        ((l.count 'W' + l.count 'w' : ℕ) : ℚ) * (N * MIN_X) := by
  induction l with
  | nil => simp
  | cons c l ih =>
    rw [List.map_cons, List.sum_cons, ih]
    by_cases hN : c = 'N'
    · subst hN; simp [elw, List.count_cons]; ring
    · by_cases hW : c = 'W'
      · subst hW; simp [elw, List.count_cons]; ring
      · by_cases hn : c = 'n'
        · subst hn; simp [elw, List.count_cons]; ring
        · by_cases hw : c = 'w'
          · subst hw; simp [elw, List.count_cons]; ring
          · simp [elw, List.count_cons, hN, hW, hn, hw]

theorem bodyCode_elw_sum : ∀ (s : List Char), s.length % 2 = 0 → (∀ c ∈ s, c ∈ alphabet) →
    ((bodyCode s).map elw).sum = (s.length : ℚ) * (2 * N + 3) * MIN_X
  | [], _, _ => by simp [bodyCode]
  | [_], he, _ => by simp at he
  | c1 :: c2 :: r, he, hd => by
    obtain ⟨hW, hN, hw, hn, -, -⟩ := pairCode_counts c1 (hd c1 (by simp)) c2 (hd c2 (by simp))
    have ih := bodyCode_elw_sum r (by simp only [List.length_cons] at he; omega)
      (fun c hc => hd c (by simp [hc]))
    rw [bodyCode, List.map_append, List.sum_append, ih, elw_sum_eq_counts, hW, hN, hw, hn]
    simp only [List.length_cons]
    push_cast
    ring

/-! ## Lemmas on `prepareText` -/

theorem toupper_idem (c : Char) : toupper (toupper c) = toupper c := by
  by_cases h : c.toNat ≥ 97 ∧ c.toNat ≤ 122
  · have hr := char_mem_of_toNat_range c 97 122 h.1 h.2
    simp [List.range'] at hr
    rcases hr with h | h | h | h | h | h | h | h | h | h | h | h | h | h | h | h | h | h | h
      | h | h | h | h | h | h | h <;> subst h <;> decide
  · have : toupper c = c := by
      unfold toupper Char.toUpper
      simp only [h, if_false]
    rw [this, this]

theorem prepareText_eq_map (s : List Char) : prepareText s = s.map toupper := by
  induction s with
  | nil => rfl
  | cons c rest ih => rw [prepareText, ih, List.map_cons]

/-! ## Lemmas on the alternation of bars and spaces -/

theorem alternates_append_even : ∀ (b : Bool) (l1 l2 : List Char), l1.length % 2 = 0 →
    alternates b (l1 ++ l2) = (alternates b l1 && alternates b l2)
  | b, [], l2, _ => by cases b <;> simp [alternates]
  | _, [_], _, he => by simp at he
  | b, c1 :: c2 :: r, l2, he => by
    have ih := alternates_append_even b r l2 (by simp only [List.length_cons] at he; omega)
    cases b <;> simp [alternates, ih, Bool.and_assoc]

theorem alternates_getElem (l : List Char) : ∀ (b : Bool) (i : Nat) (ch : Char),
    alternates b l = true → l[i]? = some ch →
    ((i % 2 = 0) → (if b then isBar ch else isSpace ch) = true) ∧
    ((i % 2 = 1) → (if b then isSpace ch else isBar ch) = true) := by
  induction l with
  | nil => intro b i ch _ h; simp at h
  | cons c cs ih =>
    intro b i ch ha hi
    cases i with
    | zero =>
      simp only [List.getElem?_cons_zero, Option.some.injEq] at hi
      subst hi
      refine ⟨fun _ => ?_, fun h => by simp at h⟩
      cases b <;> simp [alternates] at ha ⊢ <;> exact ha.1
    | succ i =>
      simp only [List.getElem?_cons_succ] at hi
      cases b
      · simp only [alternates, Bool.and_eq_true] at ha
        have := ih true i ch ha.2 hi
        simp only [if_true] at this
        refine ⟨fun h => ?_, fun h => ?_⟩
        · simpa using this.2 (by omega)
        · simpa using this.1 (by omega)
      · simp only [alternates, Bool.and_eq_true] at ha
        have := ih false i ch ha.2 hi
        simp only [Bool.false_eq_true, if_false] at this
        refine ⟨fun h => ?_, fun h => ?_⟩
        · simpa using this.2 (by omega)
        · simpa using this.1 (by omega)

theorem bodyCode_alternates : ∀ (s : List Char), s.length % 2 = 0 →
    (∀ c ∈ s, c ∈ alphabet) → alternates true (bodyCode s) = true
  | [], _, _ => by simp [bodyCode, alternates]
  | [_], he, _ => by simp at he
  | c1 :: c2 :: r, he, hd => by
    obtain ⟨-, -, -, -, hl, ha⟩ := pairCode_counts c1 (hd c1 (by simp)) c2 (hd c2 (by simp))
    have ih := bodyCode_alternates r (by simp only [List.length_cons] at he; omega)
      (fun c hc => hd c (by simp [hc]))
    rw [bodyCode, alternates_append_even _ _ _ (by rw [hl]), ha, ih]
    rfl

theorem framed_bodyCode_alternates (s : List Char) (h1 : s.length % 2 = 0)
    (h2 : ∀ c ∈ s, c ∈ alphabet) :
    alternates true (frameSymbol ++ bodyCode s ++ frameEndSymbol) = true := by
  have hl := bodyCode_length s h1 h2
  rw [List.append_assoc, alternates_append_even _ _ _ (by decide),
    alternates_append_even _ _ _ (by rw [hl]; omega), bodyCode_alternates s h1 h2]
  decide

/-! ## Lemmas on the order of the lines, the fixed point and injectivity -/

theorem elw_nonneg (c : Char) : 0 ≤ elw c := by
  unfold elw
  split_ifs <;> norm_num [MIN_X_eq, N_eq]

theorem elw_pos_of_isBar (c : Char) (h : isBar c = true) : 0 < elw c := by
  simp only [isBar, Bool.or_eq_true, decide_eq_true_eq] at h
  rcases h with h | h
  · subst h
    have e : elw 'N' = MIN_X := by simp [elw]
    rw [e, MIN_X_eq]; norm_num
  · subst h
    have e : elw 'W' = N * MIN_X := by simp [elw]
    rw [e, MIN_X_eq, N_eq]; norm_num

theorem elw_sum_nonneg (cs : List Char) : 0 ≤ (cs.map elw).sum := by
  induction cs with
  | nil => simp
  | cons c cs ih =>
    rw [List.map_cons, List.sum_cons]
    exact add_nonneg (elw_nonneg c) ih

theorem barLines_bounds (sc ht : ℚ) (hsc : 0 < sc) (cs : List Char) :
    ∀ (x1 : ℚ) (l : Line), l ∈ barLines sc ht cs x1 →
      x1 ≤ l.x ∧ 0 < l.w ∧ l.x + l.w ≤ x1 + sc * (cs.map elw).sum := by
  induction cs with
  | nil => intro x1 l h; simp [barLines] at h
  | cons c cs ih =>
    intro x1 l h
    have hc := mul_nonneg hsc.le (elw_nonneg c)
    have hs := mul_nonneg hsc.le (elw_sum_nonneg cs)
    rw [barLines, List.mem_append] at h
    rw [List.map_cons, List.sum_cons, mul_add]
    rcases h with h | h
    · cases hb : isBar c
      · simp [hb] at h
      · simp only [hb, if_true, List.mem_singleton] at h
        subst h
        have := mul_pos hsc (elw_pos_of_isBar c hb)
        refine ⟨le_refl _, this, ?_⟩
        show x1 + sc * elw c ≤ x1 + (sc * elw c + sc * (cs.map elw).sum)
        linarith
    · obtain ⟨h1, h2, h3⟩ := ih _ l h
      exact ⟨by linarith, h2, by linarith⟩

theorem barLines_pairwise (sc ht : ℚ) (hsc : 0 < sc) (cs : List Char) :
    ∀ x1 : ℚ, (barLines sc ht cs x1).Pairwise fun a b => a.x < b.x ∧ a.x + a.w ≤ b.x := by
  induction cs with
  | nil => intro x1; simp [barLines]
  | cons c cs ih =>
    intro x1
    rw [barLines]
    cases hb : isBar c
    · simpa using ih _
    · simp only [if_true, List.singleton_append, List.pairwise_cons]
      refine ⟨fun b hmem => ?_, ih _⟩
      obtain ⟨h1, -, -⟩ := barLines_bounds sc ht hsc cs _ b hmem
      have := mul_pos hsc (elw_pos_of_isBar c hb)
      refine ⟨?_, ?_⟩
      · show x1 < b.x
        linarith
      · show x1 + sc * elw c ≤ b.x
        linarith

theorem scale_returned_w (checksum : Bool) (cookedData : List Char) (w : ℚ) :
    scale checksum cookedData (width checksum cookedData w + 2 * xQuiet checksum cookedData w) =
      scale checksum cookedData w := by
  have hpos := natural_pos checksum cookedData
  rw [returned_w_eq, scale_eq_max, scale_eq_max]
  rcases le_total w (minL checksum cookedData + 2 * MIN_QUIET) with h | h
  · rw [max_eq_right h, div_self hpos.ne', max_self]
    exact (max_eq_left ((div_le_one hpos).2 h)).symm
  · rw [max_eq_left h]

theorem height_returned_h (showText checksum : Bool) (cookedData : List Char) (w w2 h : ℚ)
    (hs : scale checksum cookedData w2 = scale checksum cookedData w) :
    height showText checksum cookedData w2
        (if showText then height showText checksum cookedData w h + hTextArea checksum cookedData w
          else height showText checksum cookedData w h) =
      height showText checksum cookedData w h := by
  have hT : hTextArea checksum cookedData w2 = hTextArea checksum cookedData w := by
    unfold hTextArea; rw [hs]
  have hW : width checksum cookedData w2 = width checksum cookedData w := by
    unfold width; rw [hs]
  have hm : max (0.15 * width checksum cookedData w) MIN_HEIGHT ≤
      height showText checksum cookedData w h := le_max_right _ _
  cases showText
  · simp only [Bool.false_eq_true, if_false] at hm ⊢
    conv_lhs => unfold height
    simp only [Bool.false_eq_true, if_false, hW]
    exact max_eq_left hm
  · simp only [if_true] at hm ⊢
    conv_lhs => unfold height
    simp only [if_true, hT, hW, add_sub_cancel_right]
    exact max_eq_left hm

theorem pairCode_inj (p1 p2 q1 q2 : List Char) (h1 : p1.length = 5) (h2 : p2.length = 5)
    (h3 : q1.length = 5) (h4 : q2.length = 5) (h : pairCode p1 p2 = pairCode q1 q2) :
    p1.map toupper = q1.map toupper ∧ p2.map tolower = q2.map tolower := by
  match p1, h1, p2, h2, q1, h3, q2, h4 with
  | [a0, a1, a2, a3, a4], _, [b0, b1, b2, b3, b4], _, [c0, c1, c2, c3, c4], _,
      [d0, d1, d2, d3, d4], _ =>
    simp only [pairCode, List.cons.injEq, and_true] at h
    simp only [List.map_cons, List.map_nil, List.cons.injEq, and_true]
    tauto

theorem bodyCode_inj : ∀ (s t : List Char), s.length % 2 = 0 → (∀ c ∈ s, c ∈ alphabet) →
    t.length % 2 = 0 → (∀ c ∈ t, c ∈ alphabet) → s.length = t.length →
    bodyCode s = bodyCode t → s = t
  | [], [], _, _, _, _, _, _ => rfl
  | [], _ :: _, _, _, _, _, hl, _ => by simp at hl
  | _ :: _, [], _, _, _, _, hl, _ => by simp at hl
  | [_], _, he, _, _, _, _, _ => by simp at he
  | _, [_], _, _, he, _, _, _ => by simp at he
  | c1 :: c2 :: r, d1 :: d2 :: r2, hes, hds, het, hdt, hl, h => by
    have hc1 := hds c1 (by simp)
    have hc2 := hds c2 (by simp)
    have hd1 := hdt d1 (by simp)
    have hd2 := hdt d2 (by simp)
    have l1 := (pairCode_counts c1 hc1 c2 hc2).2.2.2.2.1
    have l2 := (pairCode_counts d1 hd1 d2 hd2).2.2.2.2.1
    rw [bodyCode, bodyCode] at h
    obtain ⟨hp, hr⟩ := List.append_inj h (by rw [l1, l2])
    obtain ⟨hu, hlo⟩ := pairCode_inj _ _ _ _ (patternOf_narrow_wide c1 hc1).1
      (patternOf_narrow_wide c2 hc2).1 (patternOf_narrow_wide d1 hd1).1
      (patternOf_narrow_wide d2 hd2).1 hp
    have e1 := (patternOf_injective c1 hc1 d1 hd1).1 hu
    have e2 := (patternOf_injective c2 hc2 d2 hd2).2 hlo
    have ih := bodyCode_inj r r2 (by simp only [List.length_cons] at hes; omega)
      (fun c hc => hds c (by simp [hc])) (by simp only [List.length_cons] at het; omega)
      (fun c hc => hdt c (by simp [hc])) (by simpa using hl) hr
    rw [e1, e2, ih]

theorem encode_elw_sum (s : List Char) (h1 : s.length % 2 = 0) (h2 : ∀ c ∈ s, c ∈ alphabet) :
    ((frameSymbol ++ bodyCode s ++ frameEndSymbol).map elw).sum =
      minL false s + (N + 6) * MIN_X := by
  have hm : minL false s = (s.length : ℚ) * (2 * N + 3) * MIN_X := by
    have e : minL false s = 2.0 * ((s.length : ℚ) / 2.0) * (2 * N + 3) * MIN_X := rfl
    have e2 : (2.0 : ℚ) = 2 := by norm_num
    rw [e, e2]
    ring
  simp only [List.map_append, List.sum_append]
  rw [bodyCode_elw_sum s h1 h2, hm]
  simp [frameSymbol, frameEndSymbol, elw]
  ring

theorem vectorize_eq_of_scale_height (showText checksum : Bool)
    (codedData displayText cookedData : List Char) (w h w2 h2 : ℚ)
    (hs : scale checksum cookedData w2 = scale checksum cookedData w)
    (hh : height showText checksum cookedData w2 h2 = height showText checksum cookedData w h) :
    vectorize showText checksum codedData displayText cookedData w2 h2 =
      vectorize showText checksum codedData displayText cookedData w h := by
  simp only [vectorize, width, hTextArea, textSize, xQuiet, hs, hh]

/-! ## Lemmas on `vectorize` in rounded arithmetic -/

theorem roundDouble_examples :
    roundDouble 0 = 0 ∧ roundDouble 1 = 1 ∧ roundDouble 72 = 72 ∧ roundDouble 2.5 = 2.5 ∧
    roundDouble (-2.5) = -2.5 ∧
    roundDouble (1 / 10) = 3602879701896397 / 36028797018963968 ∧
    roundDouble (-(1 / 10)) = -(3602879701896397 / 36028797018963968) ∧
    roundDouble (roundDouble (1 / 10) + roundDouble (2 / 10)) =
      5404319552844596 / 18014398509481984 ∧
    roundDouble (3 / 10) = 5404319552844595 / 18014398509481984 ∧
    roundDouble (2 ^ 53 + 1) = 2 ^ 53 ∧ roundDouble (2 ^ 53 + 3) = 2 ^ 53 + 4 ∧
    roundDouble (1 / 3) = 6004799503160661 / 18014398509481984 := by
  decide!

theorem double_constants :
    MIN_X_R roundDouble = 607985949695017 / 1125899906842624 ∧
    N_R roundDouble = 5 / 2 ∧
    MIN_HEIGHT_R roundDouble = 7978802279830939 / 562949953421312 ∧
    MIN_QUIET_R roundDouble = 3039929748475085 / 562949953421312 := by
  decide!

theorem vectorizeR_id (showText checksum : Bool)
    (codedData displayText cookedData : List Char) (w h : ℚ) :
    vectorizeR id showText checksum codedData displayText cookedData w h =
      vectorize showText checksum codedData displayText cookedData w h := rfl

theorem drawCharR_mem (fl : ℚ → ℚ) (sc ht x1 : ℚ) (ls : List Line) (c : Char) (l : Line)
    (h : l ∈ (drawCharR fl sc ht (x1, ls) c).2) : l ∈ ls ∨ l.h = ht := by
  unfold drawCharR at h
  split_ifs at h
  · rcases List.mem_append.1 h with h | h
    · exact Or.inl h
    · rw [List.mem_singleton] at h
      subst h
      exact Or.inr rfl
  · rcases List.mem_append.1 h with h | h
    · exact Or.inl h
    · rw [List.mem_singleton] at h
      subst h
      exact Or.inr rfl
  · exact Or.inl h
  · exact Or.inl h
  · exact Or.inl h

theorem drawLoopR_mem (fl : ℚ → ℚ) (sc ht : ℚ) (cs : List Char) :
    ∀ (x1 : ℚ) (ls : List Line) (l : Line),
      l ∈ (drawLoopR fl sc ht cs x1 ls).2 → l ∈ ls ∨ l.h = ht := by
  induction cs with
  | nil => intro x1 ls l h; exact Or.inl h
  | cons c cs ih =>
    intro x1 ls l h
    have e : drawLoopR fl sc ht (c :: cs) x1 ls =
        drawLoopR fl sc ht cs (drawCharR fl sc ht (x1, ls) c).1
          (drawCharR fl sc ht (x1, ls) c).2 := rfl
    rw [e] at h
    rcases ih _ _ l h with h | h
    · exact drawCharR_mem fl sc ht x1 ls c l h
    · exact Or.inr h

/-! ## Claims -/

/-- C1: `validate s` is true exactly when the length of `s` is even and every
character of `s` is one of the ten digits; so it accepts every even-length digit
string, the empty string among them, and rejects every string of odd length and
every string with a character that is no digit. -/
theorem validate_true_iff_even_digits (s : List Char) :
    (validate s = true ↔
      s.length % 2 = 0 ∧ ∀ c ∈ s, c ∈ ['0', '1', '2', '3', '4', '5', '6', '7', '8', '9']) ∧
    validate [] = true ∧
    (s.length % 2 = 1 → validate s = false) ∧
    ((∃ c ∈ s, c ∉ ['0', '1', '2', '3', '4', '5', '6', '7', '8', '9']) →
      validate s = false) := by
  have key : validate s = true ↔
      s.length % 2 = 0 ∧ ∀ c ∈ s, c ∈ ['0', '1', '2', '3', '4', '5', '6', '7', '8', '9'] := by
    rw [validate_iff]
    constructor
    · rintro ⟨h1, h2⟩
      exact ⟨h1, fun c hc => (mem_alphabet_iff c).2 (h2 c hc)⟩
    · rintro ⟨h1, h2⟩
      exact ⟨h1, fun c hc => (mem_alphabet_iff c).1 (h2 c hc)⟩
  refine ⟨key, by decide, ?_, ?_⟩
  · intro hodd
    cases hv : validate s
    · rfl
    · have := (key.1 hv).1
      omega
  · rintro ⟨c, hc, hnot⟩
    cases hv : validate s
    · rfl
    · exact absurd ((key.1 hv).2 c hc) hnot

/-- Witness for C1 at the strings `"1234"`, `"123"` and `"12A4"`. -/
theorem validate_true_iff_even_digits_witness :
    validate ['1', '2', '3', '4'] = true ∧ validate ['1', '2', '3'] = false ∧
      validate ['1', '2', 'A', '4'] = false :=
  ⟨by decide,
   (validate_true_iff_even_digits ['1', '2', '3']).2.2.1 (by decide),
   (validate_true_iff_even_digits ['1', '2', 'A', '4']).2.2.2 ⟨'A', by decide, by decide⟩⟩

/-- C2: for every cooked data string `s` accepted by `validate`, `encode s`
starts with `"NnNn"`, ends with `"WnN"`, and the body between the two frame
patterns has exactly `5 * s.length` tokens; the whole code string has
`5 * s.length + 7` tokens, so nothing (no checksum token) is appended besides. -/
theorem encode_frames_and_body_length (s : List Char) (hv : validate s = true) :
    ∃ (code body : List Char), encode s = some code ∧
      code = ['N', 'n', 'N', 'n'] ++ body ++ ['W', 'n', 'N'] ∧
      ['N', 'n', 'N', 'n'] <+: code ∧ ['W', 'n', 'N'] <:+ code ∧
      body.length = 5 * s.length ∧ code.length = 5 * s.length + 7 := by
  obtain ⟨h1, h2⟩ := validate_mem_alphabet s hv
  have hl := bodyCode_length s h1 h2
  refine ⟨_, bodyCode s, encode_eq s hv, rfl, ⟨bodyCode s ++ ['W', 'n', 'N'], ?_⟩,
    ⟨['N', 'n', 'N', 'n'] ++ bodyCode s, ?_⟩, hl, ?_⟩
  · simp [frameSymbol, frameEndSymbol]
  · simp [frameSymbol, frameEndSymbol]
  · simp [frameSymbol, frameEndSymbol, hl]

/-- Witness for C2 at the cooked data `"1234"`. -/
theorem encode_frames_and_body_length_witness :
    validate ['1', '2', '3', '4'] = true ∧
    ∃ (code body : List Char), encode ['1', '2', '3', '4'] = some code ∧
      code = ['N', 'n', 'N', 'n'] ++ body ++ ['W', 'n', 'N'] ∧
      ['N', 'n', 'N', 'n'] <+: code ∧ ['W', 'n', 'N'] <:+ code ∧
      body.length = 5 * ['1', '2', '3', '4'].length ∧
      code.length = 5 * ['1', '2', '3', '4'].length + 7 :=
  ⟨by decide, encode_frames_and_body_length ['1', '2', '3', '4'] (by decide)⟩

/-- C3: for every cooked data string `s` accepted by `validate` and every pair
index `k < s.length / 2`, with `c1 = s[2k]` and `c2 = s[2k+1]` of values `d1` and
`d2` in the alphabet, the segment of `encode s` at offsets `4 + 10k ..` holds at
position `2i` the uppercase of position `i` of the pattern `symbols[d1]` and at
position `2i + 1` the lowercase of position `i` of the pattern `symbols[d2]`,
for each `i < 5`. -/
theorem encode_interleaves_pair (s : List Char) (hv : validate s = true) (k : Nat)
    (hk : k < s.length / 2) :
    ∃ (code : List Char) (c1 c2 : Char) (d1 d2 : Nat) (p1 p2 : List Char), encode s = some code ∧
      s[2 * k]? = some c1 ∧ s[2 * k + 1]? = some c2 ∧
      alphabet[d1]? = some c1 ∧ alphabet[d2]? = some c2 ∧
      symbols[d1]? = some p1 ∧ symbols[d2]? = some p2 ∧
      ∀ i, i < 5 → ∃ a b, p1[i]? = some a ∧ p2[i]? = some b ∧
        code[4 + 10 * k + 2 * i]? = some (toupper a) ∧
        code[4 + 10 * k + 2 * i + 1]? = some (tolower b) := by
  obtain ⟨h1, h2⟩ := validate_mem_alphabet s hv
  have hl := bodyCode_length s h1 h2
  obtain ⟨c1, c2, hc1, hc2, hm⟩ := bodyCode_getElem s k h1 h2 hk
  obtain ⟨d1, p1, -, ha1, -, hs1, -, hp1, hl1⟩ :=
    symbolOf_of_mem_alphabet c1 (h2 c1 (List.getElem?_mem hc1))
  obtain ⟨d2, p2, -, ha2, -, hs2, -, hp2, hl2⟩ :=
    symbolOf_of_mem_alphabet c2 (h2 c2 (List.getElem?_mem hc2))
  refine ⟨_, c1, c2, d1, d2, p1, p2, encode_eq s hv, hc1, hc2, ha1, ha2, hs1, hs2, ?_⟩
  intro i hi
  obtain ⟨a, b, hpa, hpb, he, ho⟩ := pairCode_getElem p1 p2 hl1 hl2 i hi
  rw [hp1, hp2] at hm
  have hflen : frameSymbol.length = 4 := rfl
  refine ⟨a, b, hpa, hpb, ?_, ?_⟩
  · rw [List.append_assoc, List.getElem?_append_right (by rw [hflen]; omega),
      List.getElem?_append_left (by rw [hflen, hl]; omega), hflen, ← he, ← hm (2 * i) (by omega)]
    congr 1
    omega
  · rw [List.append_assoc, List.getElem?_append_right (by rw [hflen]; omega),
      List.getElem?_append_left (by rw [hflen, hl]; omega), hflen, ← ho,
      ← hm (2 * i + 1) (by omega)]
    congr 1
    omega

/-- Witness for C3 at the cooked data `"1234"` and its second pair. -/
theorem encode_interleaves_pair_witness :
    validate ['1', '2', '3', '4'] = true ∧ 1 < ['1', '2', '3', '4'].length / 2 ∧
    ∃ (code : List Char) (c1 c2 : Char) (d1 d2 : Nat) (p1 p2 : List Char), encode ['1', '2', '3', '4'] = some code ∧
      ['1', '2', '3', '4'][2 * 1]? = some c1 ∧ ['1', '2', '3', '4'][2 * 1 + 1]? = some c2 ∧
      alphabet[d1]? = some c1 ∧ alphabet[d2]? = some c2 ∧
      symbols[d1]? = some p1 ∧ symbols[d2]? = some p2 ∧
      ∀ i, i < 5 → ∃ a b, p1[i]? = some a ∧ p2[i]? = some b ∧
        code[4 + 10 * 1 + 2 * i]? = some (toupper a) ∧
        code[4 + 10 * 1 + 2 * i + 1]? = some (tolower b) :=
  ⟨by decide, by decide, encode_interleaves_pair ['1', '2', '3', '4'] (by decide) 1 (by decide)⟩

/-- C4: under the precondition `validate s = true` every lookup of `encode s`
succeeds: at each loop index `i` (even, below the length) the reads `s[i]` and
`s[i + 1]` are inside the string, both `alphabet.find` results are indices
`0..9` at which `symbols` has a pattern, each pattern index `j / 2` of the inner
loop is below `5` and inside both patterns, the inner loop returns a code string,
and `encode s` itself returns a code string. -/
theorem encode_lookups_succeed (s : List Char) (hv : validate s = true) :
    (∀ i, i < s.length → i % 2 = 0 →
      i + 1 < s.length ∧
      ∃ c1 c2 k1 k2 sym1 sym2, s[i]? = some c1 ∧ s[i + 1]? = some c2 ∧
        find alphabet (toupper c1) = some k1 ∧ k1 < 10 ∧ symbols[k1]? = some sym1 ∧
        find alphabet (toupper c2) = some k2 ∧ k2 < 10 ∧ symbols[k2]? = some sym2 ∧
        (∀ j, j < 10 → j / 2 < 5 ∧ (sym1[j / 2]?).isSome = true ∧
          (sym2[j / 2]?).isSome = true) ∧
        ∀ code, (encodePair sym1 sym2 code).isSome = true) ∧
    (encode s).isSome = true := by
  obtain ⟨h1, h2⟩ := validate_mem_alphabet s hv
  refine ⟨?_, by rw [encode_eq s hv]; rfl⟩
  intro i hi hev
  have hi1 : i + 1 < s.length := by omega
  refine ⟨hi1, s[i], s[i + 1], ?_⟩
  obtain ⟨d1, p1, hd1, -, hf1, hs1, -, -, hl1⟩ :=
    symbolOf_of_mem_alphabet s[i] (h2 _ (List.getElem_mem hi))
  obtain ⟨d2, p2, hd2, -, hf2, hs2, -, -, hl2⟩ :=
    symbolOf_of_mem_alphabet s[i + 1] (h2 _ (List.getElem_mem hi1))
  refine ⟨d1, d2, p1, p2, List.getElem?_eq_getElem hi, List.getElem?_eq_getElem hi1,
    hf1, hd1, hs1, hf2, hd2, hs2, ?_, ?_⟩
  · intro j hj
    have h5 : j / 2 < 5 := by omega
    refine ⟨h5, ?_, ?_⟩
    · rw [List.getElem?_eq_getElem (by omega)]; rfl
    · rw [List.getElem?_eq_getElem (by omega)]; rfl
  · intro code
    rw [encodePair_eq p1 p2 code hl1 hl2]
    rfl

/-- Witness for C4 at the cooked data `"1234"`. -/
theorem encode_lookups_succeed_witness :
    validate ['1', '2', '3', '4'] = true ∧ (encode ['1', '2', '3', '4']).isSome = true :=
  ⟨by decide, (encode_lookups_succeed ['1', '2', '3', '4'] (by decide)).2⟩

/-- C5: with the checksum disabled, for every cooked data and every requested
width `w` (zero, positive or negative) the width returned by `vectorize` is
`max w (minL + 2 * MIN_QUIET)` with `minL = 2 * dataSize * (2 * N + 3) * MIN_X`:
the natural width for `w = 0`, `w` itself when `w` is at or above the natural
width, and the natural width when `w` is below it. -/
theorem vectorize_returned_width (showText : Bool)
    (codedData displayText cookedData : List Char) (w h : ℚ) :
    (vectorize showText false codedData displayText cookedData w h).w =
      max w (2 * ((cookedData.length : ℚ) / 2) * (2 * N + 3) * MIN_X + 2 * MIN_QUIET) ∧
    (vectorize showText false codedData displayText cookedData 0 h).w =
      2 * ((cookedData.length : ℚ) / 2) * (2 * N + 3) * MIN_X + 2 * MIN_QUIET ∧
    (2 * ((cookedData.length : ℚ) / 2) * (2 * N + 3) * MIN_X + 2 * MIN_QUIET ≤ w →
      (vectorize showText false codedData displayText cookedData w h).w = w) ∧
    (w < 2 * ((cookedData.length : ℚ) / 2) * (2 * N + 3) * MIN_X + 2 * MIN_QUIET →
      (vectorize showText false codedData displayText cookedData w h).w =
        2 * ((cookedData.length : ℚ) / 2) * (2 * N + 3) * MIN_X + 2 * MIN_QUIET) := by
  have hm : minL false cookedData = 2 * ((cookedData.length : ℚ) / 2) * (2 * N + 3) * MIN_X := by
    simp only [minL, dataSize]
    norm_num
  have key : ∀ v : ℚ, (vectorize showText false codedData displayText cookedData v h).w =
      max v (2 * ((cookedData.length : ℚ) / 2) * (2 * N + 3) * MIN_X + 2 * MIN_QUIET) := by
    intro v
    rw [← hm, ← returned_w_eq]
    rfl
  have hpos := natural_pos false cookedData
  rw [hm] at hpos
  refine ⟨key w, ?_, ?_, ?_⟩
  · rw [key 0, max_eq_right hpos.le]
  · intro hw
    rw [key w, max_eq_left hw]
  · intro hw
    rw [key w, max_eq_right hw.le]

/-- Witness for C5: cooked data `"1234"` at the requested widths `100` and `5`. -/
theorem vectorize_returned_width_witness :
    (vectorize true false [] [] ['1', '2', '3', '4'] 100 0).w = 100 ∧
    (vectorize true false [] [] ['1', '2', '3', '4'] 5 0).w =
      2 * (((['1', '2', '3', '4'] : List Char).length : ℚ) / 2) * (2 * N + 3) * MIN_X +
        2 * MIN_QUIET :=
  ⟨(vectorize_returned_width true [] [] ['1', '2', '3', '4'] 100 0).2.2.1
      (by norm_num [N_eq, MIN_X_eq, MIN_QUIET_eq]),
   (vectorize_returned_width true [] [] ['1', '2', '3', '4'] 5 0).2.2.2
      (by norm_num [N_eq, MIN_X_eq, MIN_QUIET_eq])⟩

/-- C6, evaluated at the cooked data `"12"` drawn at its natural size: the first
bar starts at `MIN_QUIET`, but the right edge of the last bar is only `81 / 100`
(that is `1.5 * MIN_X`) short of the returned width, which is less than
`MIN_QUIET`. -/
theorem quiet_zone_right_of_12 :
    validate ['1', '2'] = true ∧
    ∃ (code : List Char) (first last : Line), encode ['1', '2'] = some code ∧
      (vectorize true false code ['1', '2'] ['1', '2'] 0 0).lines.head? = some first ∧
      (vectorize true false code ['1', '2'] ['1', '2'] 0 0).lines.getLast? = some last ∧
      MIN_QUIET ≤ first.x ∧
      (vectorize true false code ['1', '2'] ['1', '2'] 0 0).w - (last.x + last.w) = 81 / 100 ∧
      (vectorize true false code ['1', '2'] ['1', '2'] 0 0).w - (last.x + last.w) < MIN_QUIET := by
  have hs : scale false ['1', '2'] 0 = 1 := by norm_num [scale]
  have hx : xQuiet false ['1', '2'] 0 = 27 / 5 := by
    rw [xQuiet_eq, hs, MIN_QUIET_eq]; norm_num
  have hw : width false ['1', '2'] 0 = 216 / 25 := by
    norm_num [width, minL, dataSize, hs, MIN_X_eq, N_eq]
  refine ⟨by decide, _, ⟨27 / 5, 0, 27 / 50, height true false ['1', '2'] 0 0⟩,
    ⟨1809 / 100, 0, 27 / 50, height true false ['1', '2'] 0 0⟩, encode_12, ?_⟩
  simp only [vectorize, hs, hx, hw, drawLoop_cons, drawLoop_nil, drawChar_N, drawChar_W,
    drawChar_n, drawChar_w, List.nil_append, List.cons_append, List.getLast?_cons_cons,
    List.getLast?_singleton, List.head?_cons, Option.some.injEq, Line.mk.injEq]
  norm_num [MIN_X_eq, N_eq, MIN_QUIET_eq]

/-- C7 as stated fails: for the input `"12"` the lines emitted by `vectorize` on
`encode "12"` are not the bar tokens of the 10-token body plus three. -/
theorem line_count_12_ne_body_plus_three :
    ∃ code : List Char, encode ['1', '2'] = some code ∧
      (vectorize true false code ['1', '2'] ['1', '2'] 0 0).lines.length ≠
        (((code.drop 4).take 10).filter isBar).length + 3 := by
  refine ⟨_, encode_12, ?_⟩
  rw [vectorize_lines_length]
  decide

/-- C7, amended: for the input `"12"` the number of lines emitted by `vectorize` on
`encode "12"` is the number of bar tokens in the 10-token body, which is five,
plus the four frame bars: two `'N'` in the left frame `"NnNn"` and the `'W'` and
`'N'` of the right frame `"WnN"`. -/
theorem line_count_12_eq_body_plus_four (showText checksum : Bool) (displayText : List Char)
    (w h : ℚ) :
    ∃ code : List Char, encode ['1', '2'] = some code ∧
      (((code.drop 4).take 10).filter isBar).length = 5 ∧
      ((code.take 4).filter isBar).length = 2 ∧
      ((code.drop 14).filter isBar).length = 2 ∧
      (vectorize showText checksum code displayText ['1', '2'] w h).lines.length =
        (((code.drop 4).take 10).filter isBar).length + 4 := by
  refine ⟨_, encode_12, by decide, by decide, by decide, ?_⟩
  rw [vectorize_lines_length]
  decide

/-- C8: for every code string and every requested size `vectorize` emits as many
lines as the code string has bar tokens (`'N'` or `'W'`), so one per bar token
and none for any other character; it emits exactly one text primitive, carrying
`displayText`, when `showText` is true and none when it is false. For the code
string of a valid cooked data string `s` that makes `5 * (s.length / 2) + 4`
lines; for `"1234"`, `14` lines and one text primitive with the text `"1234"`. -/
theorem vectorize_primitive_counts (showText checksum : Bool)
    (codedData displayText cookedData : List Char) (w h : ℚ) (s : List Char)
    (hv : validate s = true) :
    (vectorize showText checksum codedData displayText cookedData w h).lines.length =
      (codedData.filter fun c => c = 'N' || c = 'W').length ∧
    (vectorize showText checksum (codedData.filter fun c => !(c = 'N' || c = 'W'))
      displayText cookedData w h).lines = [] ∧
    (vectorize true checksum codedData displayText cookedData w h).texts.map (·.text) =
      [displayText] ∧
    (vectorize false checksum codedData displayText cookedData w h).texts = [] ∧
    (∃ code : List Char, encode s = some code ∧
      (vectorize showText checksum code displayText s w h).lines.length =
        5 * (s.length / 2) + 4) ∧
    (∃ code : List Char, encode ['1', '2', '3', '4'] = some code ∧
      (vectorize true checksum code (prepareText ['1', '2', '3', '4']) ['1', '2', '3', '4']
        w h).lines.length = 14 ∧
      (vectorize true checksum code (prepareText ['1', '2', '3', '4']) ['1', '2', '3', '4']
        w h).texts.map (·.text) = [['1', '2', '3', '4']]) := by
  obtain ⟨h1, h2⟩ := validate_mem_alphabet s hv
  refine ⟨vectorize_lines_length _ _ _ _ _ _ _, ?_, rfl, rfl, ?_, ?_⟩
  · rw [← List.length_eq_zero, vectorize_lines_length, List.length_eq_zero,
      List.filter_filter, List.filter_eq_nil_iff]
    intro c _
    simp only [isBar]
    cases (decide (c = 'N') || decide (c = 'W')) <;> simp
  · refine ⟨_, encode_eq s hv, ?_⟩
    rw [vectorize_lines_length, List.filter_append, List.filter_append, List.length_append,
      List.length_append, bodyCode_bars s h1 h2]
    have e1 : (frameSymbol.filter isBar).length = 2 := by decide
    have e2 : (frameEndSymbol.filter isBar).length = 2 := by decide
    rw [e1, e2]
    omega
  · refine ⟨_, encode_1234, ?_, rfl⟩
    rw [vectorize_lines_length]
    decide

/-- Witness for C8 at the cooked data `"12"` and its code string. -/
theorem vectorize_primitive_counts_witness :
    validate ['1', '2'] = true ∧
    ∃ code : List Char, encode ['1', '2'] = some code ∧
      (vectorize true false code ['1', '2'] ['1', '2'] 0 0).lines.length =
        5 * (['1', '2'].length / 2) + 4 :=
  ⟨by decide,
   (vectorize_primitive_counts true false [] ['1', '2'] [] 0 0 ['1', '2'] (by decide)).2.2.2.2.1⟩

/-- C9: as a function of the requested width, for fixed cooked data, `scale` is
at least `1` everywhere and monotone: `w1 ≤ w2` gives `scale w1 ≤ scale w2`;
hence every bar emitted by `vectorize` is at least `MIN_X` wide. -/
theorem scale_ge_one_and_monotone (checksum : Bool) (cookedData : List Char) (w1 w2 : ℚ)
    (h12 : w1 ≤ w2) :
    1 ≤ scale checksum cookedData w1 ∧
    scale checksum cookedData w1 ≤ scale checksum cookedData w2 ∧
    ∀ (showText : Bool) (codedData displayText : List Char) (h : ℚ) (l : Line),
      l ∈ (vectorize showText checksum codedData displayText cookedData w1 h).lines →
        MIN_X ≤ l.w := by
  have hpos := natural_pos checksum cookedData
  refine ⟨one_le_scale _ _ _, ?_, ?_⟩
  · rw [scale_eq_max, scale_eq_max]
    exact max_le_max (le_refl _) (div_le_div_of_nonneg_right h12 hpos.le)
  · intro showText codedData displayText h l hl
    have h1 := one_le_scale checksum cookedData w1
    obtain ⟨-, -, hw | hw⟩ := vectorize_lines_mem _ _ _ _ _ _ _ l hl
    · rw [hw, MIN_X_eq]; linarith
    · rw [hw, MIN_X_eq, N_eq]; linarith

/-- Witness for C9: cooked data `"12"` at the requested widths `0` and `100`. -/
theorem scale_ge_one_and_monotone_witness :
    (0 : ℚ) ≤ 100 ∧ 1 ≤ scale false ['1', '2'] 0 ∧
      scale false ['1', '2'] 0 ≤ scale false ['1', '2'] 100 :=
  ⟨by norm_num,
   (scale_ge_one_and_monotone false ['1', '2'] 0 100 (by norm_num)).1,
   (scale_ge_one_and_monotone false ['1', '2'] 0 100 (by norm_num)).2.1⟩

/-- C10 as stated fails in the arithmetic of `double`: for the cooked data
`"1234"` with the text shown, requested width `29` and requested height the
`double` nearest to `80.2`, the returned `h` is `80.19999999999999`, below the
requested `h`: `(h - hTextArea) + hTextArea` rounds twice. -/
theorem returned_h_below_requested_h :
    validate ['1', '2', '3', '4'] = true ∧
    ∃ code : List Char, encode ['1', '2', '3', '4'] = some code ∧
      (vectorizeR roundDouble true false code ['1', '2', '3', '4'] ['1', '2', '3', '4'] 29
        (roundDouble 80.2)).h = 1410893320762163 / 17592186044416 ∧
      (vectorizeR roundDouble true false code ['1', '2', '3', '4'] ['1', '2', '3', '4'] 29
        (roundDouble 80.2)).h < roundDouble 80.2 := by
  refine ⟨by decide, _, encode_1234, ?_⟩
  decide!

/-- C10, amended: for every input, in the arithmetic of `double` as well as in
exact arithmetic (any rounding `fl`), all lines emitted by `vectorize` have the
same height `H = max h0 (max (0.15 * width) MIN_HEIGHT)`, where
`width = minL * scale` and `h0` is the requested `h` less the text area height
`scale * MIN_TEXT_AREA_HEIGHT` when `showText` is true and the requested `h`
otherwise; so `H ≥ MIN_HEIGHT`, `H ≥ 0.15 * width`, and the returned `h` is `H`
plus the text area height when `showText` is true and `H` otherwise. When the
arithmetic is taken exactly, the returned `h` is never below the requested `h`. -/
theorem vectorize_line_height (fl : ℚ → ℚ) (showText checksum : Bool)
    (codedData displayText cookedData : List Char) (w h : ℚ) :
    (heightR fl showText checksum cookedData w h =
      max (if showText then
          fl (h - fl (scaleR fl checksum cookedData w * MIN_TEXT_AREA_HEIGHT)) else h)
        (max (fl (fl 0.15 *
          fl (minLR fl checksum cookedData * scaleR fl checksum cookedData w)))
          (MIN_HEIGHT_R fl)) ∧
    (∀ l : Line,
      l ∈ (vectorizeR fl showText checksum codedData displayText cookedData w h).lines →
        l.h = heightR fl showText checksum cookedData w h) ∧
    MIN_HEIGHT_R fl ≤ heightR fl showText checksum cookedData w h ∧
    fl (fl 0.15 * fl (minLR fl checksum cookedData * scaleR fl checksum cookedData w)) ≤
      heightR fl showText checksum cookedData w h ∧
    (vectorizeR fl showText checksum codedData displayText cookedData w h).h =
      (if showText then
        fl (heightR fl showText checksum cookedData w h +
          fl (scaleR fl checksum cookedData w * MIN_TEXT_AREA_HEIGHT))
      else heightR fl showText checksum cookedData w h)) ∧
    (height showText checksum cookedData w h =
      max (if showText then h - scale checksum cookedData w * MIN_TEXT_AREA_HEIGHT else h)
        (max (0.15 * (minL checksum cookedData * scale checksum cookedData w)) MIN_HEIGHT) ∧
    (∀ l : Line,
      l ∈ (vectorize showText checksum codedData displayText cookedData w h).lines →
        l.h = height showText checksum cookedData w h) ∧
    MIN_HEIGHT ≤ height showText checksum cookedData w h ∧
    0.15 * (minL checksum cookedData * scale checksum cookedData w) ≤
      height showText checksum cookedData w h ∧
    (vectorize showText checksum codedData displayText cookedData w h).h =
      (if showText then
        height showText checksum cookedData w h + scale checksum cookedData w * MIN_TEXT_AREA_HEIGHT
      else height showText checksum cookedData w h) ∧
    h ≤ (vectorize showText checksum codedData displayText cookedData w h).h) := by
  refine ⟨⟨rfl, ?_, ?_, ?_, rfl⟩,
    ⟨rfl, fun l hl => (vectorize_lines_mem _ _ _ _ _ _ _ l hl).2.1, ?_, ?_, rfl, ?_⟩⟩
  · intro l hl
    have hl2 : l ∈ (drawLoopR fl (scaleR fl checksum cookedData w)
        (heightR fl showText checksum cookedData w h) codedData
        (xQuietR fl checksum cookedData w) []).2 := hl
    rcases drawLoopR_mem fl _ _ _ _ _ l hl2 with h0 | h0
    · simp at h0
    · exact h0
  · exact le_trans (le_max_right _ _) (le_max_right _ _)
  · exact le_trans (le_max_left _ _) (le_max_right _ _)
  · exact le_trans (le_max_right _ _) (le_max_right _ _)
  · exact le_trans (le_max_left _ _) (le_max_right _ _)
  · show h ≤ (if showText then height showText checksum cookedData w h +
      hTextArea checksum cookedData w else height showText checksum cookedData w h)
    cases showText
    · simp only [Bool.false_eq_true, if_false]
      exact le_max_left _ _
    · simp only [if_true]
      have : h - hTextArea checksum cookedData w ≤ height true checksum cookedData w h := by
        unfold height
        simp only [if_true]
        exact le_max_left _ _
      linarith

/-- Witness for C10: the single line drawn for the code string `"N"`. -/
theorem vectorize_line_height_witness :
    (⟨xQuiet false [] 0, 0, scale false [] 0 * MIN_X, height true false [] 0 0⟩ : Line) ∈
      (vectorize true false ['N'] [] [] 0 0).lines ∧
    (⟨xQuiet false [] 0, 0, scale false [] 0 * MIN_X, height true false [] 0 0⟩ : Line).h =
      height true false [] 0 0 :=
  have hm : (⟨xQuiet false [] 0, 0, scale false [] 0 * MIN_X, height true false [] 0 0⟩ : Line) ∈
      (vectorize true false ['N'] [] [] 0 0).lines := by
    simp [vectorize, drawLoop_cons, drawLoop_nil, drawChar_N]
  ⟨hm, (vectorize_line_height id true false ['N'] [] [] 0 0).2.2.1 _ hm⟩

/-- C11: each of the ten patterns of the symbol table has length 5, consists of
`'n'` and `'w'` only and has exactly two `'w'`; consequently, for every valid
cooked data string, each 10-token pair segment of the encoded body has exactly
two `'W'` bars, three `'N'` bars, two `'w'` spaces and three `'n'` spaces. -/
theorem symbols_two_wide_of_five (s : List Char) (hv : validate s = true) (k : Nat)
    (hk : k < s.length / 2) :
    symbols.length = 10 ∧
    (∀ p ∈ symbols, p.length = 5 ∧ (∀ x ∈ p, x = 'n' ∨ x = 'w') ∧ p.count 'w' = 2) ∧
    ∃ code : List Char, encode s = some code ∧
      ((code.drop (4 + 10 * k)).take 10).length = 10 ∧
      ((code.drop (4 + 10 * k)).take 10).count 'W' = 2 ∧
      ((code.drop (4 + 10 * k)).take 10).count 'N' = 3 ∧
      ((code.drop (4 + 10 * k)).take 10).count 'w' = 2 ∧
      ((code.drop (4 + 10 * k)).take 10).count 'n' = 3 := by
  obtain ⟨h1, h2⟩ := validate_mem_alphabet s hv
  obtain ⟨c1, c2, -, -, hc1, hc2, hseg⟩ := bodyCode_segment s k frameEndSymbol h1 h2 hk
  obtain ⟨hW, hN, hw, hn, hl, -⟩ := pairCode_counts c1 hc1 c2 hc2
  refine ⟨rfl, symbols_two_of_five, _, encode_eq s hv, ?_⟩
  have e : (frameSymbol ++ bodyCode s ++ frameEndSymbol).drop (4 + 10 * k) =
      (bodyCode s ++ frameEndSymbol).drop (10 * k) := by
    rw [List.append_assoc]
    exact @List.drop_append _ frameSymbol _ (10 * k)
  rw [e, hseg]
  exact ⟨hl, hW, hN, hw, hn⟩

/-- Witness for C11 at the cooked data `"1234"` and its second pair. -/
theorem symbols_two_wide_of_five_witness :
    validate ['1', '2', '3', '4'] = true ∧ 1 < ['1', '2', '3', '4'].length / 2 ∧
    ∃ code : List Char, encode ['1', '2', '3', '4'] = some code ∧
      ((code.drop (4 + 10 * 1)).take 10).length = 10 ∧
      ((code.drop (4 + 10 * 1)).take 10).count 'W' = 2 ∧
      ((code.drop (4 + 10 * 1)).take 10).count 'N' = 3 ∧
      ((code.drop (4 + 10 * 1)).take 10).count 'w' = 2 ∧
      ((code.drop (4 + 10 * 1)).take 10).count 'n' = 3 :=
  ⟨by decide, by decide,
   (symbols_two_wide_of_five ['1', '2', '3', '4'] (by decide) 1 (by decide)).2.2⟩

/-- C13 as stated fails in the arithmetic of `double`: for the code string of
`"12"` drawn at its natural size, the bar at position `6` (the fourth line) is
emitted at the cursor `x = 9.45`, the running sum rounded at every step; this
is neither the exact value of `xQuiet + scale * (sum of elw over the six tokens
before)` nor that expression evaluated in `double` arithmetic, both of which
are `9.450000000000001`. -/
theorem line_x_differs_from_closed_form :
    validate ['1', '2'] = true ∧
    ∃ (code : List Char) (l : Line), encode ['1', '2'] = some code ∧
      code[6]? = some 'N' ∧ ((code.take 6).filter fun c => c = 'N' || c = 'W').length = 3 ∧
      (vectorizeR roundDouble true false code ['1', '2'] ['1', '2'] 0 0).lines[3]? = some l ∧
      l.x = 2659938529915699 / 281474976710656 ∧
      xQuietR roundDouble false ['1', '2'] 0 +
          scaleR roundDouble false ['1', '2'] 0 * ((code.take 6).map (elwR roundDouble)).sum =
        21279508239325595 / 2251799813685248 ∧
      roundDouble (xQuietR roundDouble false ['1', '2'] 0 +
          roundDouble (scaleR roundDouble false ['1', '2'] 0 *
            (code.take 6).foldl (fun s c => roundDouble (s + roundDouble (elwR roundDouble c))) 0)) =
        5319877059831399 / 562949953421312 ∧
      l.x ≠ 21279508239325595 / 2251799813685248 ∧
      l.x ≠ 5319877059831399 / 562949953421312 := by
  refine ⟨by decide, _, ⟨2659938529915699 / 281474976710656, 0,
    607985949695017 / 1125899906842624, 7978802279830939 / 562949953421312⟩, encode_12, ?_⟩
  decide!

/-- C13, amended: with the arithmetic taken exactly, for every code string the
lines emitted by `vectorize` are, in the left-to-right order of the bar tokens,
exactly
`(xQuiet + scale * (sum of elw over the tokens before k), 0, scale * elw c[k], height)`
for each position `k` holding `'N'` or `'W'`: there are as many lines as bar
tokens, and the line of the bar at position `k` comes after those of the bars
before `k`. Here `elw` is `MIN_X` for `'N'` and `'n'`, `N * MIN_X = 2.5 * MIN_X`
for `'W'` and `'w'`, and `0` for any other character, which leaves the cursor and
the lines unchanged. -/
theorem vectorize_lines_positions (showText checksum : Bool)
    (codedData displayText cookedData : List Char) (w h : ℚ) :
    (elw 'N' = MIN_X ∧ elw 'n' = MIN_X ∧ elw 'W' = N * MIN_X ∧ elw 'w' = N * MIN_X ∧
      N * MIN_X = 2.5 * MIN_X) ∧
    (∀ c : Char, c ≠ 'N' → c ≠ 'W' → c ≠ 'n' → c ≠ 'w' →
      elw c = 0 ∧ ∀ (sc ht x1 : ℚ) (ls : List Line), drawChar sc ht (x1, ls) c = (x1, ls)) ∧
    (vectorize showText checksum codedData displayText cookedData w h).lines.length =
      (codedData.filter fun c => c = 'N' || c = 'W').length ∧
    ∀ (k : Nat) (ch : Char), codedData[k]? = some ch → ch = 'N' ∨ ch = 'W' →
      (vectorize showText checksum codedData displayText cookedData w h).lines[
          ((codedData.take k).filter fun c => c = 'N' || c = 'W').length]? =
        some ⟨xQuiet checksum cookedData w +
            scale checksum cookedData w * ((codedData.take k).map elw).sum,
          0, scale checksum cookedData w * elw ch, height showText checksum cookedData w h⟩ := by
  refine ⟨⟨by simp [elw], by simp [elw], by simp [elw], by simp [elw], by norm_num [N_eq]⟩,
    ?_, vectorize_lines_length _ _ _ _ _ _ _, ?_⟩
  · intro c hN hW hn hw
    exact ⟨by simp [elw, hN, hW, hn, hw], fun sc ht x1 ls => by simp [drawChar, hN, hW, hn, hw]⟩
  · intro k ch hk hb
    rw [vectorize_lines_eq]
    exact barLines_getElem _ _ codedData _ k ch hk (by rcases hb with h | h <;> subst h <;> decide)

/-- Witness for C13: the second bar of the code string `"NnW"`. -/
theorem vectorize_lines_positions_witness :
    (['N', 'n', 'W'] : List Char)[2]? = some 'W' ∧
    (vectorize true false ['N', 'n', 'W'] [] [] 0 0).lines[
        (((['N', 'n', 'W'] : List Char).take 2).filter fun c => c = 'N' || c = 'W').length]? =
      some ⟨xQuiet false [] 0 +
          scale false [] 0 * (((['N', 'n', 'W'] : List Char).take 2).map elw).sum,
        0, scale false [] 0 * elw 'W', height true false [] 0 0⟩ :=
  ⟨rfl, (vectorize_lines_positions true false ['N', 'n', 'W'] [] [] 0 0).2.2.2 2 'W' rfl
    (Or.inr rfl)⟩

/-- C16 as stated fails in the arithmetic of `double`: for the code string of
`"1234"` drawn at its natural size, the cursor after the sweep is
`27.269999999999996`; this is neither the exact value of
`xQuiet + scale * (minL + (N + 6) * MIN_X)` nor that expression evaluated in
`double` arithmetic, both of which are `27.270000000000003`. -/
theorem final_cursor_differs_from_closed_form :
    validate ['1', '2', '3', '4'] = true ∧
    ∃ code : List Char, encode ['1', '2', '3', '4'] = some code ∧
      (drawLoopR roundDouble (scaleR roundDouble false ['1', '2', '3', '4'] 0)
          (heightR roundDouble true false ['1', '2', '3', '4'] 0 0) code
          (xQuietR roundDouble false ['1', '2', '3', '4'] 0) []).1 =
        1918955653724897 / 70368744177664 ∧
      xQuietR roundDouble false ['1', '2', '3', '4'] 0 +
          scaleR roundDouble false ['1', '2', '3', '4'] 0 *
            (minLR roundDouble false ['1', '2', '3', '4'] +
              (N_R roundDouble + 6) * MIN_X_R roundDouble) =
        61406580919196717 / 2251799813685248 ∧
      roundDouble (xQuietR roundDouble false ['1', '2', '3', '4'] 0 +
          roundDouble (scaleR roundDouble false ['1', '2', '3', '4'] 0 *
            roundDouble (minLR roundDouble false ['1', '2', '3', '4'] +
              roundDouble (roundDouble (N_R roundDouble + 6) * MIN_X_R roundDouble)))) =
        3837911307449795 / 140737488355328 ∧
      (1918955653724897 / 70368744177664 : ℚ) ≠ 61406580919196717 / 2251799813685248 ∧
      (1918955653724897 / 70368744177664 : ℚ) ≠ 3837911307449795 / 140737488355328 := by
  refine ⟨by decide, _, encode_1234, ?_⟩
  decide!

/-- C16, amended: with the arithmetic taken exactly, for every valid cooked data
string `s` the element widths of the body tokens of `encode s` (the code string
without the frames `"NnNn"` and `"WnN"`) sum to exactly
`minL = 2 * dataSize * (2 * N + 3) * MIN_X` with `dataSize = s.length / 2`, the
two frame patterns add a further `(N + 6) * MIN_X`, and the cursor after the
sweep over the whole code string is `xQuiet + scale * (minL + (N + 6) * MIN_X)`. -/
theorem body_width_eq_minL (showText : Bool) (s : List Char) (hv : validate s = true)
    (w h : ℚ) :
    ∃ body : List Char, encode s = some (['N', 'n', 'N', 'n'] ++ body ++ ['W', 'n', 'N']) ∧
      (body.map elw).sum = 2 * ((s.length : ℚ) / 2) * (2 * N + 3) * MIN_X ∧
      (body.map elw).sum = minL false s ∧
      ((['N', 'n', 'N', 'n'] : List Char).map elw).sum +
        ((['W', 'n', 'N'] : List Char).map elw).sum = (N + 6) * MIN_X ∧
      (drawLoop (scale false s w) (height showText false s w h)
          (['N', 'n', 'N', 'n'] ++ body ++ ['W', 'n', 'N']) (xQuiet false s w) []).1 =
        xQuiet false s w + scale false s w * (minL false s + (N + 6) * MIN_X) := by
  obtain ⟨h1, h2⟩ := validate_mem_alphabet s hv
  have hb := bodyCode_elw_sum s h1 h2
  have hm : minL false s = (s.length : ℚ) * (2 * N + 3) * MIN_X := by
    have e : minL false s = 2.0 * ((s.length : ℚ) / 2.0) * (2 * N + 3) * MIN_X := rfl
    have e2 : (2.0 : ℚ) = 2 := by norm_num
    rw [e, e2]
    ring
  have hf : ((['N', 'n', 'N', 'n'] : List Char).map elw).sum +
      ((['W', 'n', 'N'] : List Char).map elw).sum = (N + 6) * MIN_X := by
    simp [elw]
    ring
  refine ⟨bodyCode s, encode_eq s hv, ?_, ?_, hf, ?_⟩
  · rw [hb]; ring
  · rw [hb, hm]
  · rw [drawLoop_eq]
    simp only [List.map_append, List.sum_append]
    rw [hb, hm]
    linear_combination (scale false s w) * hf

/-- Witness for C16 at the cooked data `"1234"` drawn at its natural size. -/
theorem body_width_eq_minL_witness :
    validate ['1', '2', '3', '4'] = true ∧
    ∃ body : List Char,
      encode ['1', '2', '3', '4'] = some (['N', 'n', 'N', 'n'] ++ body ++ ['W', 'n', 'N']) ∧
      (body.map elw).sum = 2 * (((['1', '2', '3', '4'] : List Char).length : ℚ) / 2) *
        (2 * N + 3) * MIN_X ∧
      (body.map elw).sum = minL false ['1', '2', '3', '4'] ∧
      ((['N', 'n', 'N', 'n'] : List Char).map elw).sum +
        ((['W', 'n', 'N'] : List Char).map elw).sum = (N + 6) * MIN_X ∧
      (drawLoop (scale false ['1', '2', '3', '4'] 0) (height true false ['1', '2', '3', '4'] 0 0)
          (['N', 'n', 'N', 'n'] ++ body ++ ['W', 'n', 'N'])
          (xQuiet false ['1', '2', '3', '4'] 0) []).1 =
        xQuiet false ['1', '2', '3', '4'] 0 +
          scale false ['1', '2', '3', '4'] 0 * (minL false ['1', '2', '3', '4'] + (N + 6) * MIN_X) :=
  ⟨by decide, body_width_eq_minL true ['1', '2', '3', '4'] (by decide) 0 0⟩

/-- C12: for every string `s`, `prepareText s` has the length of `s` and its
`i`-th character is the uppercase of the `i`-th character of `s`; so `prepareText`
is idempotent, and for every `s` accepted by `validate` (digits only)
`prepareText s = s`: no checksum and no start or stop character is added. -/
theorem prepareText_uppercases (s : List Char) :
    (prepareText s).length = s.length ∧
    (∀ i : Nat, (prepareText s)[i]? = (s[i]?).map Char.toUpper) ∧
    prepareText (prepareText s) = prepareText s ∧
    (validate s = true → prepareText s = s) := by
  refine ⟨by rw [prepareText_eq_map, List.length_map], ?_, ?_, ?_⟩
  · intro i
    rw [prepareText_eq_map, List.getElem?_map]
    rfl
  · rw [prepareText_eq_map, prepareText_eq_map, List.map_map]
    apply List.map_congr_left
    intro c _
    exact toupper_idem c
  · intro hv
    obtain ⟨-, h2⟩ := (validate_iff s).1 hv
    rw [prepareText_eq_map]
    conv_rhs => rw [← List.map_id s]
    apply List.map_congr_left
    intro c hc
    exact toupper_of_isDigit c (h2 c hc)

/-- Witness for C12 at the validated string `"1234"`. -/
theorem prepareText_uppercases_witness :
    validate ['1', '2', '3', '4'] = true ∧
      prepareText ['1', '2', '3', '4'] = ['1', '2', '3', '4'] :=
  ⟨by decide, (prepareText_uppercases ['1', '2', '3', '4']).2.2.2 (by decide)⟩

/-- C14: for every cooked data string `s` accepted by `validate`, every token of
`encode s` is one of `'N'`, `'n'`, `'W'`, `'w'`, and bars and spaces alternate
strictly over the whole code string, frames included: the token at every even
index is a bar (`'N'` or `'W'`), the token at every odd index is a space
(`'n'` or `'w'`), and the code string begins and ends with a bar. -/
theorem encode_alternates (s : List Char) (hv : validate s = true) :
    ∃ code : List Char, encode s = some code ∧
      (∀ c ∈ code, c = 'N' ∨ c = 'n' ∨ c = 'W' ∨ c = 'w') ∧
      (∀ (i : Nat) (ch : Char), code[i]? = some ch →
        (i % 2 = 0 → ch = 'N' ∨ ch = 'W') ∧ (i % 2 = 1 → ch = 'n' ∨ ch = 'w')) ∧
      (∃ a b : Char, code.head? = some a ∧ code.getLast? = some b ∧
        (a = 'N' ∨ a = 'W') ∧ (b = 'N' ∨ b = 'W')) := by
  obtain ⟨h1, h2⟩ := validate_mem_alphabet s hv
  have ha := framed_bodyCode_alternates s h1 h2
  have key : ∀ (i : Nat) (ch : Char),
      (frameSymbol ++ bodyCode s ++ frameEndSymbol)[i]? = some ch →
      (i % 2 = 0 → ch = 'N' ∨ ch = 'W') ∧ (i % 2 = 1 → ch = 'n' ∨ ch = 'w') := by
    intro i ch hi
    obtain ⟨he, ho⟩ := alternates_getElem _ true i ch ha hi
    simp only [if_true, isBar, isSpace, Bool.or_eq_true, decide_eq_true_eq] at he ho
    exact ⟨he, ho⟩
  refine ⟨_, encode_eq s hv, ?_, key, 'N', 'N', ?_, ?_, Or.inl rfl, Or.inl rfl⟩
  · intro c hc
    obtain ⟨i, hi, hget⟩ := List.getElem_of_mem hc
    have hq : (frameSymbol ++ bodyCode s ++ frameEndSymbol)[i]? = some c := by
      rw [List.getElem?_eq_getElem hi, hget]
    obtain ⟨he, ho⟩ := key i c hq
    rcases Nat.mod_two_eq_zero_or_one i with hpar | hpar
    · rcases he hpar with h | h
      · exact Or.inl h
      · exact Or.inr (Or.inr (Or.inl h))
    · rcases ho hpar with h | h
      · exact Or.inr (Or.inl h)
      · exact Or.inr (Or.inr (Or.inr h))
  · simp [frameSymbol]
  · simp [frameEndSymbol]

/-- Witness for C14 at the cooked data `"1234"`. -/
theorem encode_alternates_witness :
    validate ['1', '2', '3', '4'] = true ∧
    ∃ code : List Char, encode ['1', '2', '3', '4'] = some code ∧
      (∀ c ∈ code, c = 'N' ∨ c = 'n' ∨ c = 'W' ∨ c = 'w') ∧
      (∀ (i : Nat) (ch : Char), code[i]? = some ch →
        (i % 2 = 0 → ch = 'N' ∨ ch = 'W') ∧ (i % 2 = 1 → ch = 'n' ∨ ch = 'w')) ∧
      (∃ a b : Char, code.head? = some a ∧ code.getLast? = some b ∧
        (a = 'N' ∨ a = 'W') ∧ (b = 'N' ∨ b = 'W')) :=
  ⟨by decide, encode_alternates ['1', '2', '3', '4'] (by decide)⟩

/-- C17: for every valid cooked data string `s` and every requested size, the
lines emitted by `vectorize` on `encode s` come in strictly increasing `x`
order, do not overlap (each bar starts at or after the right edge of every
earlier one), and lie inside the returned width: `0 ≤ x` and
`x + width ≤ returned w` for every line. -/
theorem lines_ordered_inside_width (showText : Bool) (s displayText : List Char)
    (hv : validate s = true) (w h : ℚ) :
    ∃ code : List Char, encode s = some code ∧
      (vectorize showText false code displayText s w h).lines.Pairwise
        (fun a b => a.x < b.x ∧ a.x + a.w ≤ b.x) ∧
      ∀ l : Line, l ∈ (vectorize showText false code displayText s w h).lines →
        0 ≤ l.x ∧ l.x + l.w ≤ (vectorize showText false code displayText s w h).w := by
  obtain ⟨h1, h2⟩ := validate_mem_alphabet s hv
  have hsc := one_le_scale false s w
  have hpos : 0 < scale false s w := by linarith
  refine ⟨_, encode_eq s hv, ?_, ?_⟩
  · rw [vectorize_lines_eq]
    exact barLines_pairwise _ _ hpos _ _
  · intro l hl
    rw [vectorize_lines_eq] at hl
    obtain ⟨b1, -, b3⟩ := barLines_bounds _ _ hpos _ _ l hl
    rw [encode_elw_sum s h1 h2, xQuiet_eq] at b3
    rw [xQuiet_eq] at b1
    have hw : (vectorize showText false (frameSymbol ++ bodyCode s ++ frameEndSymbol)
        displayText s w h).w = minL false s * scale false s w + 2 * xQuiet false s w := rfl
    rw [hw, xQuiet_eq]
    rw [MIN_QUIET_eq] at b1 b3 ⊢
    rw [MIN_X_eq, N_eq] at b3
    constructor
    · nlinarith
    · nlinarith

/-- Witness for C17 at the cooked data `"1234"` drawn at its natural size. -/
theorem lines_ordered_inside_width_witness :
    validate ['1', '2', '3', '4'] = true ∧
    ∃ code : List Char, encode ['1', '2', '3', '4'] = some code ∧
      (vectorize true false code ['1', '2', '3', '4'] ['1', '2', '3', '4'] 0 0).lines.Pairwise
        (fun a b => a.x < b.x ∧ a.x + a.w ≤ b.x) ∧
      ∀ l : Line,
        l ∈ (vectorize true false code ['1', '2', '3', '4'] ['1', '2', '3', '4'] 0 0).lines →
        0 ≤ l.x ∧ l.x + l.w ≤
          (vectorize true false code ['1', '2', '3', '4'] ['1', '2', '3', '4'] 0 0).w :=
  ⟨by decide,
   lines_ordered_inside_width true ['1', '2', '3', '4'] ['1', '2', '3', '4'] (by decide) 0 0⟩

/-- C18 as stated fails in the arithmetic of `double`: for the code string of
`"12"` with the text shown and requested size `(0, 0)`, the first call returns
`h = 26.1732` and draws lines of height `14.1732` and the text at
`y = 22.9732`; the second call, with the returned size as the requested size,
draws lines of height `14.173200000000001` and the text at
`y = 22.973200000000002`, so its primitives are not those of the first call. -/
theorem second_call_differs_from_first :
    validate ['1', '2'] = true ∧
    ∃ code : List Char, encode ['1', '2'] = some code ∧
      ((vectorizeR roundDouble true false code ['1', '2'] ['1', '2'] 0 0).lines.map (·.h)).head? =
        some (7978802279830939 / 562949953421312) ∧
      ((vectorizeR roundDouble true false code ['1', '2'] ['1', '2']
          (vectorizeR roundDouble true false code ['1', '2'] ['1', '2'] 0 0).w
          (vectorizeR roundDouble true false code ['1', '2'] ['1', '2'] 0 0).h).lines.map
            (·.h)).head? = some (1994700569957735 / 140737488355328) ∧
      (vectorizeR roundDouble true false code ['1', '2'] ['1', '2'] 0 0).texts.map (·.y) =
        [3233190467484621 / 140737488355328] ∧
      (vectorizeR roundDouble true false code ['1', '2'] ['1', '2']
          (vectorizeR roundDouble true false code ['1', '2'] ['1', '2'] 0 0).w
          (vectorizeR roundDouble true false code ['1', '2'] ['1', '2'] 0 0).h).texts.map (·.y) =
        [6466380934969243 / 281474976710656] ∧
      vectorizeR roundDouble true false code ['1', '2'] ['1', '2']
          (vectorizeR roundDouble true false code ['1', '2'] ['1', '2'] 0 0).w
          (vectorizeR roundDouble true false code ['1', '2'] ['1', '2'] 0 0).h ≠
        vectorizeR roundDouble true false code ['1', '2'] ['1', '2'] 0 0 := by
  refine ⟨by decide, _, encode_12, ?_⟩
  decide!

/-- C18, amended: with the arithmetic taken exactly, size negotiation is a fixed
point: for every code string, display text, cooked data and requested `(w, h)`,
calling `vectorize` again with the returned size as the requested size returns
the same size and emits exactly the same line and text primitives as the first
call. -/
theorem vectorize_fixed_point (showText checksum : Bool)
    (codedData displayText cookedData : List Char) (w h : ℚ) :
    vectorize showText checksum codedData displayText cookedData
        (vectorize showText checksum codedData displayText cookedData w h).w
        (vectorize showText checksum codedData displayText cookedData w h).h =
      vectorize showText checksum codedData displayText cookedData w h := by
  have hs := scale_returned_w checksum cookedData w
  exact vectorize_eq_of_scale_height showText checksum codedData displayText cookedData w h _ _
    hs (height_returned_h showText checksum cookedData w _ h hs)

/-- C19: `encode` is injective on validated input: for all strings `s` and `t`
accepted by `validate`, `encode s = encode t` implies `s = t`; the ten patterns
of the symbol table are pairwise distinct. -/
theorem encode_injective (s t : List Char) (hs : validate s = true) (ht : validate t = true)
    (h : encode s = encode t) : symbols.Nodup ∧ s = t := by
  refine ⟨by decide, ?_⟩
  obtain ⟨s1, s2⟩ := validate_mem_alphabet s hs
  obtain ⟨t1, t2⟩ := validate_mem_alphabet t ht
  rw [encode_eq s hs, encode_eq t ht, Option.some.injEq, List.append_assoc, List.append_assoc] at h
  have hb : bodyCode s = bodyCode t :=
    List.append_cancel_right (List.append_cancel_left h)
  have hl : s.length = t.length := by
    have := congrArg List.length hb
    rw [bodyCode_length s s1 s2, bodyCode_length t t1 t2] at this
    omega
  exact bodyCode_inj s t s1 s2 t1 t2 hl hb

/-- Witness for C19 at the cooked data `"12"`. -/
theorem encode_injective_witness :
    validate ['1', '2'] = true ∧ encode ['1', '2'] = encode ['1', '2'] ∧
      symbols.Nodup ∧ (['1', '2'] : List Char) = ['1', '2'] :=
  ⟨by decide, rfl, encode_injective ['1', '2'] ['1', '2'] (by decide) (by decide) rfl⟩

end BarcodeI2of5
